import Mathlib

/-!
# Verification of the RaceLens `DataCleaner` (src/cleaning.py)

A shallow embedding of the pure-Python cleaning utilities of the RaceLens
repository (`src/cleaning.py`, class `DataCleaner`), together with theorems
settling the specification claims about them.

Modelling choices, documented once here:

* Scalar cell values are `Value`: the Python `None`, a string, an `int`, or a
  `float`.  Python floats are modelled as exact decimal numbers
  (`Dec`, value `m * 10^e`): every number this program handles is produced by
  parsing a decimal literal, and the program performs no float arithmetic
  (only parsing, pass-through and comparisons), so the decimal model is exact
  except for inputs needing more than double precision.  `inf`/`nan` literals,
  underscore digit separators and Python `bool` values are outside the model.
* `str()` of a float is modelled by `strOfDec`, following Python `repr` of a
  float: positional notation with a forced `.0` for integral values, and
  scientific notation exactly when the decimal exponent of the leading digit
  is `≥ 16` or `≤ -5` (Python switches to scientific for `|x| ≥ 1e16` and for
  `0 < |x| < 1e-4`).
* Rows (Python dicts) are association lists `Row := List (String × Value)` in
  insertion order; a real Python dict always has distinct keys, which appears
  as a `Nodup` hypothesis where a theorem needs it.  Dict update keeps the
  position of an existing key and appends a fresh key at the end, as in
  CPython.
* `print` diagnostics are modelled as an explicit list of warning strings
  returned next to the value by `clean_distance` / `clean_currency`.
-/

namespace RaceLens

/-- An exact decimal number `m * 10 ^ e`, modelling a Python float. -/
structure Dec where
  m : Int
  e : Int
deriving DecidableEq

/-- The rational value of a `Dec`. -/
def Dec.toRat (d : Dec) : ℚ := (d.m : ℚ) * (10 : ℚ) ^ d.e

/-- Exact numeric comparison `a < b` of decimals, by cross-scaling to a
common exponent (`a.m * 10^a.e < b.m * 10^b.e`). -/
def Dec.blt (a b : Dec) : Bool :=
  if a.e ≤ b.e then a.m < b.m * 10 ^ (b.e - a.e).toNat
  else a.m * 10 ^ (a.e - b.e).toNat < b.m

/-- Exact numeric equality `a = b` of decimals, by cross-scaling. -/
def Dec.beq (a b : Dec) : Bool :=
  if a.e ≤ b.e then a.m == b.m * 10 ^ (b.e - a.e).toNat
  else a.m * 10 ^ (a.e - b.e).toNat == b.m

/-- A scalar cell value: Python `None`, `str`, `int` or `float`. -/
inductive Value where
  | none : Value
  | str (s : String) : Value
  | int (n : Int) : Value
  | float (d : Dec) : Value
deriving DecidableEq

/-- Characters stripped by Python `str.strip()` (ASCII whitespace). -/
def isSpace (c : Char) : Bool :=
  c = ' ' || c = '\t' || c = '\n' || c = '\x0d' || c = '\x0b' || c = '\x0c'

/-- Remove leading and trailing whitespace characters from a character list. -/
def stripList (l : List Char) : List Char :=
  ((l.dropWhile isSpace).reverse.dropWhile isSpace).reverse

/-- Python `s.strip()`: remove leading and trailing whitespace. -/
def pyStrip (s : String) : String := String.mk (stripList s.toList)

/-- Fueled helper for `stripZeros` (structural recursion so that the kernel
can evaluate it; `fuel = n` always suffices since `n / 10 < n` for `n ≠ 0`). -/
def stripZerosAux : Nat → Nat → Nat × Nat
  | 0, n => (n, 0)
  | fuel + 1, n =>
    if n ≠ 0 && n % 10 == 0 then
      let p := stripZerosAux fuel (n / 10)
      (p.1, p.2 + 1)
    else
      (n, 0)

/-- Strip trailing base-10 zeros from a natural number, returning the reduced
number and how many zeros were removed. -/
def stripZeros (n : Nat) : Nat × Nat := stripZerosAux n n

/-- Normalise a `Dec`: make the mantissa not divisible by 10 (or `⟨0, 0⟩`). -/
def Dec.norm (d : Dec) : Dec :=
  if d.m = 0 then ⟨0, 0⟩
  else
    let p := stripZeros d.m.natAbs
    ⟨(if d.m < 0 then -(p.1 : Int) else (p.1 : Int)), d.e + p.2⟩

/-- Python `repr`/`str` of a float (under the exact-decimal model):
positional with a trailing `.0` for integral values, scientific notation when
the exponent of the leading digit is `≥ 16` or `≤ -5`. -/
def strOfDec (d : Dec) : String :=
  let dn := d.norm
  if dn.m = 0 then "0.0"
  else
    let sign := if dn.m < 0 then "-" else ""
    let ds := toString dn.m.natAbs
    let k : Int := ds.length
    let E : Int := dn.e + k - 1
    if E ≥ 16 ∨ E ≤ -5 then
      let mant := if ds.length = 1 then ds else ds.take 1 ++ "." ++ ds.drop 1
      let esign := if E < 0 then "-" else "+"
      let eabs := E.natAbs
      let estr := if eabs < 10 then "0" ++ toString eabs else toString eabs
      sign ++ mant ++ "e" ++ esign ++ estr
    else if dn.e ≥ 0 then
      sign ++ ds ++ String.mk (List.replicate dn.e.toNat '0') ++ ".0"
    else
      let frac := dn.e.natAbs
      if ds.length > frac then
        sign ++ ds.take (ds.length - frac) ++ "." ++ ds.drop (ds.length - frac)
      else
        sign ++ "0." ++ String.mk (List.replicate (frac - ds.length) '0') ++ ds

/-- Python `str()` of a cell value. -/
def pyStr : Value → String
  | .none => "None"
  | .str s => s
  | .int n => toString n
  | .float d => strOfDec d

/-- `DataCleaner.NA_TOKENS`: the literal missing-value tokens of the source. -/
def NA_TOKENS : List String :=
  ["NA", "N/A", "n/a", "NULL", "null", "None", ".", "-", "—", ""]

/-- `DataCleaner.is_missing`: `None` is missing; a string is missing iff its
stripped form is an `NA_TOKENS` member or empty; anything else is not. -/
def is_missing : Value → Bool
  | .none => true
  | .str s => NA_TOKENS.contains (pyStrip s) || pyStrip s == ""
  | _ => false

/-- Digit characters to the natural number they denote (base 10). -/
def digitsToNat (ds : List Char) : Nat :=
  ds.foldl (fun a c => a * 10 + (c.toNat - '0'.toNat)) 0

/-- Split an optional leading sign character off a character list. -/
def splitSign : List Char → List Char × List Char
  | [] => ([], [])
  | c :: t => if c = '+' || c = '-' then ([c], t) else ([], c :: t)

/-- The integer sign denoted by a sign prefix (`[]`, `['+']` or `['-']`). -/
def signVal (sg : List Char) : Int := if sg = ['-'] then -1 else 1

/-- Python `float(s)` on an (already stripped) string, under the exact-decimal
model: optional sign, integer digits and/or a decimal point with fractional
digits (at least one digit overall), and an optional exponent part.  Returns
`none` where Python raises `ValueError`.  (`inf`/`nan` literals and underscore
separators are outside the model.) -/
def parseFloat (s : String) : Option Dec :=
  let sp := splitSign s.toList
  let ip := sp.2.takeWhile Char.isDigit
  let r1 := sp.2.dropWhile Char.isDigit
  let fr : List Char × List Char :=
    match r1 with
    | [] => ([], [])
    | c :: t =>
      if c = '.' then (t.takeWhile Char.isDigit, t.dropWhile Char.isDigit) else ([], c :: t)
  if ip.isEmpty && fr.1.isEmpty then Option.none
  else
    match fr.2 with
    | [] => some ⟨signVal sp.1 * (digitsToNat (ip ++ fr.1) : Int), -(fr.1.length : Int)⟩
    | c :: t =>
      if c = 'e' || c = 'E' then
        let ep := splitSign t
        let eds := ep.2.takeWhile Char.isDigit
        let r3 := ep.2.dropWhile Char.isDigit
        if eds.isEmpty || !r3.isEmpty then Option.none
        else
          some ⟨signVal sp.1 * (digitsToNat (ip ++ fr.1) : Int),
                signVal ep.1 * (digitsToNat eds : Int) - (fr.1.length : Int)⟩
      else Option.none

/-- Try to match `\d+(?:\.\d+)?` (greedily) at the start of the character
list, returning the matched characters. -/
def matchBody (rest : List Char) : Option (List Char) :=
  let ds := rest.takeWhile Char.isDigit
  if ds.isEmpty then Option.none
  else
    match rest.dropWhile Char.isDigit with
    | [] => some ds
    | c :: t =>
      if c = '.' then
        let fs := t.takeWhile Char.isDigit
        if fs.isEmpty then some ds else some (ds ++ '.' :: fs)
      else some ds

/-- Try to match the regex `[+-]?\d+(?:\.\d+)?` (greedily) at the start of the
character list, returning the matched characters. -/
def matchNumAt (cs : List Char) : Option (List Char) :=
  (matchBody (splitSign cs).2).map (fun b => (splitSign cs).1 ++ b)

/-- `re.search(r"([+-]?\d+(?:\.\d+)?)", ·)`: first (leftmost, then greedy)
match of the numeric pattern in the character list. -/
def searchNumber : List Char → Option (List Char)
  | [] => Option.none
  | c :: t =>
    match matchNumAt (c :: t) with
    | some m => some m
    | Option.none => searchNumber t

/-- Store an optional result the way the Python code stores it in a dict cell:
`None` becomes the `None` value. -/
def optToValue : Option Value → Value
  | Option.none => .none
  | some v => v

/-- `DataCleaner.clean_distance`: absent when missing, else the first numeric
substring of `str(val)` parsed as a float; never warns (the second component
is the—always empty—list of emitted warnings). -/
def clean_distance (v : Value) : Option Value × List String :=
  if is_missing v then (Option.none, [])
  else
    match searchNumber (pyStr v).toList with
    | some mt => (some (.float ((parseFloat (String.mk mt)).getD ⟨0, 0⟩)), [])
    | Option.none => (Option.none, [])

/-- `re.sub(r"[\$,]", "", ·)`: drop every `$` and `,` character. -/
def stripCurrencyChars (s : String) : String :=
  String.mk (s.toList.filter (fun c => !(c = '$' || c = ',')))

/-- `DataCleaner.clean_currency`: absent when missing; numeric input returned
as a float directly; otherwise strip `$`/`,`, trim, parse; warn (second
component) on a negative or `> 1e9` parsed value, or on parse failure. -/
def clean_currency (v : Value) : Option Value × List String :=
  if is_missing v then (Option.none, [])
  else
    match v with
    | .int n => (some (.float ⟨n, 0⟩), [])
    | .float d => (some (.float d), [])
    | w =>
      let s := pyStrip (stripCurrencyChars (pyStr w))
      if s = "" then (Option.none, [])
      else
        match parseFloat s with
        | some d =>
          if Dec.blt d ⟨0, 0⟩ then
            (some (.float d), ["Warning: Negative currency value: " ++ strOfDec d])
          else if Dec.blt ⟨1, 9⟩ d then
            (some (.float d), ["Warning: Extremely large currency value: " ++ strOfDec d])
          else (some (.float d), [])
        | Option.none => (Option.none, ["Warning: Cannot parse currency value: " ++ pyStr w])

/-- `DataCleaner.tidy_string`: absent when missing, else `str(val).strip()`. -/
def tidy_string (v : Value) : Option Value :=
  if is_missing v then Option.none
  else some (.str (pyStrip (pyStr v)))

/-- A row (Python dict) as an association list in insertion order. -/
abbrev Row := List (String × Value)

/-- Dict lookup `r[k]` / `r.get(k)`: value at the first matching key. -/
def getVal (r : Row) (k : String) : Option Value :=
  (r.find? (fun p => p.1 == k)).map Prod.snd

/-- Dict assignment `r[k] = v`: overwrite in place when the key is present
(CPython keeps its position), otherwise append at the end. -/
def setVal (r : Row) (k : String) (v : Value) : Row :=
  if (r.find? (fun p => p.1 == k)).isSome then
    r.map (fun p => if p.1 == k then (k, v) else p)
  else r ++ [(k, v)]

/-- Dict key deletion (the removal half of `r.pop(k)`). -/
def delKey (r : Row) (k : String) : Row := r.filter (fun p => !(p.1 == k))

/-- `if a in out: out[b] = out.pop(a)` — one rename-table step. -/
def renameKey (r : Row) (a b : String) : Row :=
  match getVal r a with
  | some v => setVal (delKey r a) b v
  | Option.none => r

/-- The fixed column rename table of `clean_row`, in source order. -/
def rename_map : List (String × String) :=
  [("Distance", "distance"), ("Purse", "purse"), ("Field_size", "field_size"),
   ("Earnings", "earnings"), ("Final Odds", "final_odds")]

/-- The rename loop of `clean_row`. -/
def renameCols (r : Row) : Row :=
  rename_map.foldl (fun acc p => renameKey acc p.1 p.2) r

/-- `if k in out: out[k] = f(out[k])` — clean one field in place, keeping only
the value component of the cleaner (its warnings go to the console). -/
def cleanField (r : Row) (k : String) (f : Value → Option Value × List String) : Row :=
  match getVal r k with
  | some v => setVal r k (optToValue (f v).1)
  | Option.none => r

/-- One cell of the final loop of `clean_row`: `tidy_string` the value if it
is a string, else leave it alone. -/
def tidyVal : Value → Value
  | .str s => optToValue (tidy_string (.str s))
  | v => v

/-- The final loop of `clean_row`: tidy every string-valued cell. -/
def tidyRow (r : Row) : Row :=
  r.map (fun p => (p.1, tidyVal p.2))

/-- `DataCleaner.clean_row`: rename columns, clean `distance`, clean `purse`
and `earnings`, then tidy all string cells. -/
def clean_row (r : Row) : Row :=
  tidyRow (cleanField (cleanField (cleanField (renameCols r) "distance" clean_distance)
    "purse" clean_currency) "earnings" clean_currency)

/-- `DataCleaner.clean_data`: clean each row in order. -/
def clean_data (rows : List Row) : List Row := rows.map clean_row

/-- `DataCleaner.find_missing`: per-column missing counts over the key set of
the first row; `row.get(col)` of an absent key is `None`, hence missing. -/
def find_missing (rows : List Row) : List (String × Nat) :=
  match rows with
  | [] => []
  | first :: _ =>
    (first.map Prod.fst).map (fun c =>
      (c, rows.countP (fun row => is_missing (optToValue (getVal row c)))))

/-- Python `==` on cell values: `None == None`, string equality, and numeric
equality across `int`/`float` by exact value. -/
def pyValEq (a b : Value) : Bool :=
  match a, b with
  | .none, .none => true
  | .str s, .str t => s == t
  | .int m, .int n => m == n
  | .int m, .float d => Dec.beq ⟨m, 0⟩ d
  | .float d, .int n => Dec.beq d ⟨n, 0⟩
  | .float c, .float d => Dec.beq c d
  | _, _ => false

/-- Elementwise equality of item lists (Python `==` on tuples of pairs). -/
def itemsEq (a b : Row) : Bool :=
  a.length == b.length &&
    (a.zip b).all (fun q => q.1.1 == q.2.1 && pyValEq q.1.2 q.2.2)

/-- Lexicographic (code-point) comparison of character lists, Python's string
order. -/
def charsLE : List Char → List Char → Bool
  | [], _ => true
  | _ :: _, [] => false
  | c :: cs, d :: ds => if c = d then charsLE cs ds else decide (c < d)

/-- Python `a <= b` on strings. -/
def strLEb (a b : String) : Bool := charsLE a.toList b.toList

/-- Ordering of dict items by key, as used by `sorted(row.items())` (keys of
one dict are distinct, so the value components never get compared). -/
def keyLE (p q : String × Value) : Prop := strLEb p.1 q.1 = true

instance : DecidableRel keyLE := fun p q => instDecidableEqBool (strLEb p.1 q.1) true

instance : IsTotal (String × Value) keyLE :=
  ⟨fun a b => by
    unfold keyLE strLEb
    generalize a.1.toList = u
    generalize b.1.toList = w
    induction u generalizing w with
    | nil => left; rfl
    | cons c cs ih =>
      cases w with
      | nil => right; rfl
      | cons d ds =>
        rcases lt_trichotomy c d with h | h | h
        · left; simp [charsLE, h, ne_of_lt h]
        · subst h; simpa [charsLE] using ih ds
        · right; simp [charsLE, h, ne_of_lt h]⟩

instance : IsTrans (String × Value) keyLE :=
  ⟨fun a b c h1 h2 => by
    unfold keyLE strLEb at h1 h2 ⊢
    revert h1 h2
    generalize a.1.toList = u
    generalize b.1.toList = w
    generalize c.1.toList = t
    intro h1 h2
    induction u generalizing w t with
    | nil => rfl
    | cons x xs ih =>
      cases w with
      | nil => simp [charsLE] at h1
      | cons y ys =>
        cases t with
        | nil => simp [charsLE] at h2
        | cons z zs =>
          simp only [charsLE] at h1 h2 ⊢
          by_cases hxy : x = y
          · subst hxy
            by_cases hyz : x = z
            · subst hyz
              rw [if_pos rfl] at h1 h2 ⊢
              exact ih ys zs h1 h2
            · simp_all
          · simp only [hxy, if_false, decide_eq_true_eq] at h1
            by_cases hyz : y = z
            · subst hyz
              simp [hxy, h1]
            · simp only [hyz, if_false, decide_eq_true_eq] at h2
              have hxz : x < z := lt_trans h1 h2
              simp [ne_of_lt hxz, hxz]⟩

/-- `sorted(row.items())`: the items sorted by key. -/
def sortedItems (r : Row) : Row := List.insertionSort keyLE r

/-- `tuple(sorted(a.items())) == tuple(sorted(b.items()))`: row equality as
`find_duplicates` compares rows. -/
def rowEq (a b : Row) : Bool := itemsEq (sortedItems a) (sortedItems b)

/-- The loop of `find_duplicates`: `seen` holds (representatives of) the
tuples seen so far, `dups` the duplicates output so far. -/
def findDupsAux : List Row → List Row → List Row → List Row
  | _, dups, [] => dups
  | seen, dups, r :: rs =>
    if seen.any (fun s => rowEq r s) then findDupsAux seen (dups ++ [r]) rs
    else findDupsAux (seen ++ [r]) dups rs

/-- `DataCleaner.find_duplicates`. -/
def find_duplicates (rows : List Row) : List Row := findDupsAux [] [] rows

/-- Claim-side row equality: the two rows have exactly the same full set of
(key, value) pairs — every key of one is a key of the other, with matching
values (order-independent). -/
def specRowEq (a b : Row) : Bool :=
  (a.all fun p =>
    match getVal b p.1 with
    | some v => pyValEq p.2 v
    | Option.none => false) &&
  (b.all fun p => (getVal a p.1).isSome)

/-- Claim-side description of `find_duplicates`: emit exactly those rows that
are equal (per `eqf`) to some earlier row, in input order (`pre` is the list
of rows occurring before the current suffix). -/
def dupsBySpec (eqf : Row → Row → Bool) : List Row → List Row → List Row
  | _, [] => []
  | pre, r :: rs =>
    (if pre.any (fun p => eqf r p) then [r] else []) ++ dupsBySpec eqf (pre ++ [r]) rs

/-- Lookup in a column-to-count report (`find_missing` output). -/
def getCount (m : List (String × Nat)) (c : String) : Option Nat :=
  (m.find? (fun p => p.1 == c)).map Prod.snd

/-- Description of the sign-free regex body `\d+(?:\.\d+)?`: digits followed
by an optional decimal fraction. -/
def IsBodyToken (b : List Char) : Prop :=
  ∃ ds fr : List Char,
    b = ds ++ fr ∧ ds ≠ [] ∧ (∀ c ∈ ds, c.isDigit = true) ∧
    (fr = [] ∨ ∃ fd, fr = '.' :: fd ∧ fd ≠ [] ∧ ∀ c ∈ fd, c.isDigit = true)

/-- Claim-side description of the regex `[+-]?\d+(?:\.\d+)?`: an optional sign
followed by digits and an optional decimal fraction. -/
def IsNumToken (mt : List Char) : Prop :=
  ∃ sg ds fr : List Char,
    mt = sg ++ ds ++ fr ∧
    (sg = [] ∨ sg = ['+'] ∨ sg = ['-']) ∧
    ds ≠ [] ∧ (∀ c ∈ ds, c.isDigit = true) ∧
    (fr = [] ∨ ∃ fd, fr = '.' :: fd ∧ fd ≠ [] ∧ ∀ c ∈ fd, c.isDigit = true)

/-- The value transformation `clean_row` applies to the cell at key `k` of a
row whose keys are canonical (no rename fires): distance/currency cleaning by
key, then string tidying. -/
def cleanVal (k : String) (v : Value) : Value :=
  tidyVal (if k = "distance" then optToValue (clean_distance v).1
    else if k = "purse" then optToValue (clean_currency v).1
    else if k = "earnings" then optToValue (clean_currency v).1
    else v)

example : is_missing (.str "  n/a ") = true := by decide
example : is_missing (.str "na") = false := by decide
example : is_missing (.int 0) = false := by decide
example : pyStrip "  Horse  " = "Horse" := by decide
example : strOfDec ⟨432, -2⟩ = "4.32" := by decide
example : strOfDec ⟨10000000000000000, 0⟩ = "1e+16" := by decide
example : strOfDec ⟨-5, 0⟩ = "-5.0" := by decide
example : strOfDec ⟨15, 15⟩ = "1.5e+16" := by decide
example : strOfDec ⟨1, -5⟩ = "1e-05" := by decide
example : strOfDec ⟨1, -3⟩ = "0.001" := by decide
example : parseFloat "4500.00" = some ⟨450000, -2⟩ := by decide
example : parseFloat "-2.5" = some ⟨-25, -1⟩ := by decide
example : parseFloat "1e5" = some ⟨1, 5⟩ := by decide
example : parseFloat ".5" = some ⟨5, -1⟩ := by decide
example : parseFloat "5." = some ⟨5, 0⟩ := by decide
example : parseFloat "abc" = Option.none := by decide
example : parseFloat "" = Option.none := by decide
example : searchNumber "4.32F".toList = some "4.32".toList := by decide
example : searchNumber "a-5x".toList = some "-5".toList := by decide
example : searchNumber "4.".toList = some "4".toList := by decide
example : searchNumber "abc".toList = Option.none := by decide
example : clean_distance (.str "4.32F") = (some (.float ⟨432, -2⟩), []) := by decide
example : clean_distance (.str "  ") = (Option.none, []) := by decide
example : clean_distance .none = (Option.none, []) := by decide
example : clean_currency (.str "$4,500.00") = (some (.float ⟨450000, -2⟩), []) := by decide
example : clean_currency (.str "NA") = (Option.none, []) := by decide
example : clean_currency (.int 1000) = (some (.float ⟨1000, 0⟩), []) := by decide
example : clean_currency (.str "abc") =
    (Option.none, ["Warning: Cannot parse currency value: abc"]) := by decide
example : clean_currency (.int (-5)) = (some (.float ⟨-5, 0⟩), []) := by decide
example : clean_currency (.str "-5") =
    (some (.float ⟨-5, 0⟩), ["Warning: Negative currency value: -5.0"]) := by decide
example : clean_currency (.str "2000000001") =
    (some (.float ⟨2000000001, 0⟩),
     ["Warning: Extremely large currency value: 2000000001.0"]) := by decide
example : tidy_string (.str "  Horse  ") = some (.str "Horse") := by decide
example : tidy_string (.str "") = Option.none := by decide

example :
    clean_row [("Distance", .str "4.32F"), ("Purse", .str "$4,500.00"),
               ("Earnings", .str "1000"), ("Field_size", .str "10"),
               ("Final Odds", .str "2.5"), ("SomeCol", .str "   ")] =
      [("SomeCol", .none), ("distance", .float ⟨432, -2⟩),
       ("purse", .float ⟨450000, -2⟩), ("field_size", .str "10"),
       ("earnings", .float ⟨1000, 0⟩), ("final_odds", .str "2.5")] := by decide

example : rowEq [("id", .int 1), ("name", .str "A")]
    [("name", .str "A"), ("id", .float ⟨1, 0⟩)] = true := by decide

example : rowEq [("id", .int 1)] [("id", .int 2)] = false := by decide

example :
    find_duplicates
      [[("id", .int 1), ("name", .str "A")],
       [("id", .int 1), ("name", .str "A")],
       [("id", .int 2), ("name", .str "B")]] =
      [[("id", .int 1), ("name", .str "A")]] := by decide

example :
    find_missing [[("a", .none), ("b", .int 1)], [("a", .int 2), ("b", .str "NA")]] =
      [("a", 1), ("b", 1)] := by decide

/-! ## Lemmas about exact-decimal comparison -/

theorem toRat_lt_shift (m1 m2 e : Int) (k : Nat) :
    Dec.toRat ⟨m1, e⟩ < Dec.toRat ⟨m2, e + (k : Int)⟩ ↔ m1 < m2 * 10 ^ k := by
  unfold Dec.toRat
  dsimp only
  rw [zpow_add₀ (by norm_num : (10 : ℚ) ≠ 0), zpow_natCast]
  rw [show (m2 : ℚ) * ((10 : ℚ) ^ e * (10 : ℚ) ^ k) =
        ((m2 * 10 ^ k : ℤ) : ℚ) * (10 : ℚ) ^ e by push_cast; ring]
  rw [mul_lt_mul_right (by positivity : (0 : ℚ) < (10 : ℚ) ^ e)]
  exact Int.cast_lt

theorem toRat_lt_shift2 (m1 m2 e : Int) (k : Nat) :
    Dec.toRat ⟨m1, e + (k : Int)⟩ < Dec.toRat ⟨m2, e⟩ ↔ m1 * 10 ^ k < m2 := by
  unfold Dec.toRat
  dsimp only
  rw [zpow_add₀ (by norm_num : (10 : ℚ) ≠ 0), zpow_natCast]
  rw [show (m1 : ℚ) * ((10 : ℚ) ^ e * (10 : ℚ) ^ k) =
        ((m1 * 10 ^ k : ℤ) : ℚ) * (10 : ℚ) ^ e by push_cast; ring]
  rw [mul_lt_mul_right (by positivity : (0 : ℚ) < (10 : ℚ) ^ e)]
  exact Int.cast_lt

theorem toRat_eq_shift (m1 m2 e : Int) (k : Nat) :
    Dec.toRat ⟨m1, e⟩ = Dec.toRat ⟨m2, e + (k : Int)⟩ ↔ m1 = m2 * 10 ^ k := by
  unfold Dec.toRat
  dsimp only
  rw [zpow_add₀ (by norm_num : (10 : ℚ) ≠ 0), zpow_natCast]
  rw [show (m2 : ℚ) * ((10 : ℚ) ^ e * (10 : ℚ) ^ k) =
        ((m2 * 10 ^ k : ℤ) : ℚ) * (10 : ℚ) ^ e by push_cast; ring]
  rw [mul_left_inj' (by positivity : (10 : ℚ) ^ e ≠ 0)]
  exact Int.cast_inj

theorem Dec.blt_iff (a b : Dec) : Dec.blt a b = true ↔ a.toRat < b.toRat := by
  obtain ⟨m1, e1⟩ := a
  obtain ⟨m2, e2⟩ := b
  unfold Dec.blt
  dsimp only
  by_cases h : e1 ≤ e2
  · rw [if_pos h, decide_eq_true_eq]
    have h2 : e2 = e1 + ((e2 - e1).toNat : ℤ) := by omega
    rw [show Dec.toRat ⟨m2, e2⟩ = Dec.toRat ⟨m2, e1 + ((e2 - e1).toNat : ℤ)⟩ by rw [← h2]]
    exact (toRat_lt_shift m1 m2 e1 _).symm
  · rw [if_neg h, decide_eq_true_eq]
    have h2 : e1 = e2 + ((e1 - e2).toNat : ℤ) := by omega
    rw [show Dec.toRat ⟨m1, e1⟩ = Dec.toRat ⟨m1, e2 + ((e1 - e2).toNat : ℤ)⟩ by rw [← h2]]
    exact (toRat_lt_shift2 m1 m2 e2 _).symm

theorem Dec.beq_iff (a b : Dec) : Dec.beq a b = true ↔ a.toRat = b.toRat := by
  obtain ⟨m1, e1⟩ := a
  obtain ⟨m2, e2⟩ := b
  unfold Dec.beq
  dsimp only
  by_cases h : e1 ≤ e2
  · rw [if_pos h, beq_iff_eq]
    have h2 : e2 = e1 + ((e2 - e1).toNat : ℤ) := by omega
    rw [show Dec.toRat ⟨m2, e2⟩ = Dec.toRat ⟨m2, e1 + ((e2 - e1).toNat : ℤ)⟩ by rw [← h2]]
    exact (toRat_eq_shift m1 m2 e1 _).symm
  · rw [if_neg h, beq_iff_eq]
    have h2 : e1 = e2 + ((e1 - e2).toNat : ℤ) := by omega
    rw [show Dec.toRat ⟨m1, e1⟩ = Dec.toRat ⟨m1, e2 + ((e1 - e2).toNat : ℤ)⟩ by rw [← h2]]
    rw [show (Dec.toRat ⟨m1, e2 + ((e1 - e2).toNat : ℤ)⟩ = Dec.toRat ⟨m2, e2⟩) ↔
          (Dec.toRat ⟨m2, e2⟩ = Dec.toRat ⟨m1, e2 + ((e1 - e2).toNat : ℤ)⟩) from eq_comm]
    rw [toRat_eq_shift m2 m1 e2 _]
    exact eq_comm

/-! ## Claim C1 -/

/-- **C1** (corrected).  `is_missing` is true exactly for the null value and
for strings whose whitespace-stripped form is one of the literal tokens
`NA`, `N/A`, `n/a`, `NULL`, `null`, `None`, `.`, `-`, `—` or the empty
string; it is false for every numeric value.  (The lowercase token `na`
asserted by the claim is not in the code's token set; see the
counterexample.) -/
theorem is_missing_characterization (v : Value) :
    is_missing v = true ↔
      v = Value.none ∨ ∃ s, v = Value.str s ∧
        (pyStrip s = "NA" ∨ pyStrip s = "N/A" ∨ pyStrip s = "n/a" ∨
         pyStrip s = "NULL" ∨ pyStrip s = "null" ∨ pyStrip s = "None" ∨
         pyStrip s = "." ∨ pyStrip s = "-" ∨ pyStrip s = "—" ∨ pyStrip s = "") := by
  cases v with
  | none => simp [is_missing]
  | str s =>
    simp only [is_missing, NA_TOKENS, Bool.or_eq_true, beq_iff_eq]
    constructor
    · intro h
      right
      refine ⟨s, rfl, ?_⟩
      rcases h with h | h
      · have hm : pyStrip s ∈
            ["NA", "N/A", "n/a", "NULL", "null", "None", ".", "-", "—", ""] := by
          simpa using h
        simpa using hm
      · tauto
    · rintro (h | ⟨s2, hs2, h⟩)
      · exact absurd h (by simp)
      · cases hs2
        rcases h with h | h | h | h | h | h | h | h | h | h <;> simp [h]
  | int n => simp [is_missing]
  | float d => simp [is_missing]

/-- **C1 counterexample**: the claim lists lowercase `"na"` among the missing
tokens, but the code's `NA_TOKENS` contains `NA` and `n/a`, not `na`, so
`is_missing("na")` is false where the claim requires it true. -/
theorem is_missing_na_lowercase : is_missing (Value.str "na") = false := by decide

/-! ## Claim C7 -/

/-- **C7** (confirmed).  `clean_data` maps `clean_row` over the rows: the
output has the same length as the input, its `i`-th element is `clean_row` of
the `i`-th input row, and `clean_data [] = []`. -/
theorem clean_data_pointwise :
    clean_data [] = [] ∧
    ∀ rows : List Row, (clean_data rows).length = rows.length ∧
      ∀ i : Nat, (clean_data rows)[i]? = (rows[i]?).map clean_row := by
  refine ⟨rfl, fun rows => ⟨List.length_map _ _, fun i => ?_⟩⟩
  simp [clean_data]

/-! ## Claim C2 -/

/-- **C2** (corrected).  Warning behaviour of `clean_currency`: for a
non-missing *string* input whose cleaned text parses to a number that is
negative or exceeds one billion, the number is returned unmodified together
with a diagnostic warning; a cleaned string that fails to parse yields absent
plus a warning.  But an input that is already numeric (`int` or `float`) is
returned directly as a float with *no* warning, even when negative or above
one billion — contrary to the claim as stated (see the counterexample). -/
theorem clean_currency_warnings :
    (∀ n : Int, clean_currency (.int n) = (some (.float ⟨n, 0⟩), [])) ∧
    (∀ d : Dec, clean_currency (.float d) = (some (.float d), [])) ∧
    ∀ s : String, is_missing (.str s) = false →
      (∀ d : Dec, parseFloat (pyStrip (stripCurrencyChars s)) = some d →
        (Dec.toRat d < 0 ∨ 1000000000 < Dec.toRat d) →
        (clean_currency (.str s)).1 = some (.float d) ∧
        (clean_currency (.str s)).2 ≠ []) ∧
      (pyStrip (stripCurrencyChars s) ≠ "" →
        parseFloat (pyStrip (stripCurrencyChars s)) = Option.none →
        (clean_currency (.str s)).1 = Option.none ∧
        (clean_currency (.str s)).2 ≠ []) := by
  refine ⟨fun n => by simp [clean_currency, is_missing],
          fun d => by simp [clean_currency, is_missing], fun s hs => ?_⟩
  constructor
  · intro d hd hcond
    have hne : pyStrip (stripCurrencyChars s) ≠ "" := by
      intro h
      rw [h] at hd
      simp [parseFloat, splitSign] at hd
    simp only [clean_currency, hs, Bool.false_eq_true, if_false, pyStr]
    rw [if_neg hne, hd]
    by_cases hneg : Dec.blt d ⟨0, 0⟩
    · simp [hneg]
    · have hbig : Dec.blt ⟨1, 9⟩ d = true := by
        rw [Dec.blt_iff]
        have h0 : Dec.toRat ⟨1, 9⟩ = 1000000000 := by
          norm_num [Dec.toRat]
        rw [h0]
        rcases hcond with h | h
        · exact absurd (Dec.blt_iff d ⟨0, 0⟩ |>.mpr (by simpa [Dec.toRat] using h)) hneg
        · exact h
      simp [hneg, hbig]
  · intro hne hnone
    simp only [clean_currency, hs, Bool.false_eq_true, if_false, pyStr]
    rw [if_neg hne, hnone]
    simp

/-- **C2 counterexample**: numeric inputs skip the range check entirely —
`clean_currency(-5)` returns `-5.0` with no warning and
`clean_currency(2_000_000_000)` returns the value with no warning, though the
claim requires a diagnostic warning in both cases. -/
theorem clean_currency_int_no_warning :
    clean_currency (Value.int (-5)) = (some (.float ⟨-5, 0⟩), []) ∧
    clean_currency (Value.int 2000000000) = (some (.float ⟨2000000000, 0⟩), []) := by
  exact ⟨by decide, by decide⟩

/-- **C2 witness**: the string branches of `clean_currency_warnings` applied
at `"-5"` (negative: warns) and `"abc"` (unparseable: warns). -/
theorem clean_currency_warnings_witness :
    (is_missing (Value.str "-5") = false ∧
     parseFloat (pyStrip (stripCurrencyChars "-5")) = some ⟨-5, 0⟩ ∧
     (clean_currency (Value.str "-5")).1 = some (.float ⟨-5, 0⟩) ∧
     (clean_currency (Value.str "-5")).2 ≠ []) ∧
    (is_missing (Value.str "abc") = false ∧
     pyStrip (stripCurrencyChars "abc") ≠ "" ∧
     parseFloat (pyStrip (stripCurrencyChars "abc")) = Option.none ∧
     (clean_currency (Value.str "abc")).1 = Option.none ∧
     (clean_currency (Value.str "abc")).2 ≠ []) := by
  have h1 := (clean_currency_warnings.2.2 "-5" (by decide)).1 ⟨-5, 0⟩ (by decide)
    (Or.inl (by norm_num [Dec.toRat]))
  have h2 := (clean_currency_warnings.2.2 "abc" (by decide)).2 (by decide) (by decide)
  exact ⟨⟨by decide, by decide, h1.1, h1.2⟩, ⟨by decide, by decide, by decide, h2.1, h2.2⟩⟩

/-! ## Claim C5 -/

theorem find_map_pair (f : String → Nat) (l : List String) (c : String) (hc : c ∈ l) :
    (l.map fun x => (x, f x)).find? (fun p => p.1 == c) = some (c, f c) := by
  induction l with
  | nil => cases hc
  | cons a t ih =>
    by_cases h : a = c
    · subst h
      rw [List.map_cons, List.find?_cons_of_pos _ (by simp)]
    · rcases List.mem_cons.mp hc with h1 | h1
      · exact absurd h1.symm h
      · rw [List.map_cons, List.find?_cons_of_neg _ (by simp [h])]
        exact ih h1

/-- **C5** (confirmed).  `find_missing` of the empty list is empty; otherwise
its keys are exactly the keys of the first row, and each column's entry
counts, over all rows, the rows whose value at that column — the `None`
value when the key is absent — satisfies `is_missing`. -/
theorem find_missing_spec :
    find_missing [] = [] ∧
    ∀ (r : Row) (rs : List Row),
      (find_missing (r :: rs)).map Prod.fst = r.map Prod.fst ∧
      ∀ c, c ∈ r.map Prod.fst →
        getCount (find_missing (r :: rs)) c =
          some ((r :: rs).countP fun row => is_missing (optToValue (getVal row c))) := by
  refine ⟨rfl, fun r rs => ⟨?_, fun c hc => ?_⟩⟩
  · rw [show find_missing (r :: rs) = (r.map Prod.fst).map
        (fun c => (c, (r :: rs).countP fun row => is_missing (optToValue (getVal row c))))
        from rfl]
    rw [List.map_map]
    simp [Function.comp]
  · unfold find_missing getCount
    rw [find_map_pair _ _ c hc]
    rfl

/-- **C5 witness**: the spec's own example — rows
`[{"a": None, "b": 1}, {"a": 2, "b": "NA"}]` — instantiating
`find_missing_spec` at column `"a"`. -/
theorem find_missing_spec_witness :
    ("a" ∈ ([("a", Value.none), ("b", Value.int 1)] : Row).map Prod.fst) ∧
    getCount (find_missing [[("a", Value.none), ("b", Value.int 1)],
                            [("a", Value.int 2), ("b", Value.str "NA")]]) "a" =
      some (([[("a", Value.none), ("b", Value.int 1)],
              [("a", Value.int 2), ("b", Value.str "NA")]] : List Row).countP
        fun row => is_missing (optToValue (getVal row "a"))) :=
  ⟨by decide, (find_missing_spec.2 [("a", Value.none), ("b", Value.int 1)]
      [[("a", Value.int 2), ("b", Value.str "NA")]]).2 "a" (by decide)⟩

/-! ## Dict-operation lemmas -/

theorem getVal_cons (p : String × Value) (t : Row) (k : String) :
    getVal (p :: t) k = if p.1 == k then some p.2 else getVal t k := by
  unfold getVal
  by_cases h : p.1 == k
  · rw [if_pos h, @List.find?_cons_of_pos _ (fun x => x.1 == k) p t h]
    rfl
  · rw [if_neg h, @List.find?_cons_of_neg _ (fun x => x.1 == k) p t h]

theorem getVal_eq_none_iff {r : Row} {k : String} :
    getVal r k = Option.none ↔ ∀ p ∈ r, p.1 ≠ k := by
  unfold getVal
  rw [Option.map_eq_none', List.find?_eq_none]
  simp

theorem getVal_some_mem {r : Row} {k : String} {v : Value}
    (h : getVal r k = some v) : (k, v) ∈ r := by
  induction r with
  | nil => cases h
  | cons p t ih =>
    rw [getVal_cons] at h
    by_cases hp : p.1 == k
    · rw [if_pos hp] at h
      have h1 : p.1 = k := by simpa using hp
      have h2 : p.2 = v := by simpa using h
      have h3 : p = (k, v) := by rw [← h1, ← h2]
      rw [← h3]
      exact List.mem_cons_self p t
    · rw [if_neg hp] at h
      exact List.mem_cons_of_mem _ (ih h)

theorem getVal_mem_nodup {r : Row} (hnd : (r.map Prod.fst).Nodup) {p : String × Value}
    (hp : p ∈ r) : getVal r p.1 = some p.2 := by
  induction r with
  | nil => cases hp
  | cons q t ih =>
    rw [getVal_cons]
    rcases List.mem_cons.mp hp with h | h
    · subst h
      rw [if_pos (by simp)]
    · have hq : q.1 ∉ t.map Prod.fst := (List.nodup_cons.mp (by simpa using hnd)).1
      have hne : q.1 ≠ p.1 := fun he => hq (he ▸ List.mem_map_of_mem Prod.fst h)
      rw [if_neg (by simp [hne])]
      exact ih (List.nodup_cons.mp (by simpa using hnd)).2 h

theorem getVal_map_update (r : Row) (k : String) (v : Value) :
    getVal (r.map fun p => if p.1 == k then (k, v) else p) k =
      (getVal r k).map fun _ => v := by
  induction r with
  | nil => rfl
  | cons q t ih =>
    rw [List.map_cons, getVal_cons q t k]
    by_cases h : q.1 == k
    · rw [if_pos h, if_pos h, getVal_cons, if_pos (by simp)]
      rfl
    · rw [if_neg h, if_neg h, getVal_cons, if_neg h]
      exact ih

theorem getVal_map_ne (r : Row) (k q : String) (v : Value) (h : q ≠ k) :
    getVal (r.map fun p => if p.1 == k then (k, v) else p) q = getVal r q := by
  induction r with
  | nil => rfl
  | cons p t ih =>
    rw [List.map_cons, getVal_cons p t q]
    by_cases hp : p.1 == k
    · have hp2 : p.1 = k := by simpa using hp
      rw [if_pos hp, getVal_cons, if_neg (by simp [Ne.symm h]),
          if_neg (by simp [hp2, Ne.symm h])]
      exact ih
    · rw [if_neg hp, getVal_cons]
      by_cases hq : p.1 == q
      · rw [if_pos hq, if_pos hq]
      · rw [if_neg hq, if_neg hq]
        exact ih

theorem getVal_setVal_self (r : Row) (k : String) (v : Value) :
    getVal (setVal r k v) k = some v := by
  unfold setVal
  by_cases h : (r.find? fun p => p.1 == k).isSome
  · rw [if_pos h, getVal_map_update]
    obtain ⟨p, hp⟩ := Option.isSome_iff_exists.mp h
    unfold getVal
    rw [hp]
    rfl
  · rw [if_neg h]
    unfold getVal
    rw [List.find?_append, Option.not_isSome_iff_eq_none.mp h]
    simp [List.find?]

theorem getVal_setVal_ne (r : Row) (k q : String) (v : Value) (h : q ≠ k) :
    getVal (setVal r k v) q = getVal r q := by
  unfold setVal
  by_cases hs : (r.find? fun p => p.1 == k).isSome
  · rw [if_pos hs]
    exact getVal_map_ne r k q v h
  · rw [if_neg hs]
    unfold getVal
    rw [List.find?_append]
    have h2 : List.find? (fun p => p.1 == q) [(k, v)] = Option.none := by
      have : (k == q) = false := by simp [Ne.symm h]
      simp [List.find?, this]
    rw [h2]
    cases r.find? (fun p => p.1 == q) <;> rfl

theorem getVal_delKey_self (r : Row) (k : String) :
    getVal (delKey r k) k = Option.none := by
  rw [getVal_eq_none_iff]
  intro p hp
  have := List.of_mem_filter hp
  simpa using this

theorem getVal_delKey_ne (r : Row) (k q : String) (h : q ≠ k) :
    getVal (delKey r k) q = getVal r q := by
  unfold delKey
  induction r with
  | nil => rfl
  | cons p t ih =>
    rw [getVal_cons p t q]
    by_cases hp : p.1 == k
    · have hp2 : p.1 = k := by simpa using hp
      rw [List.filter_cons_of_neg (by simp [hp]), if_neg (by simp [hp2, Ne.symm h])]
      exact ih
    · rw [List.filter_cons_of_pos (by simp [hp]), getVal_cons]
      by_cases hq : p.1 == q
      · rw [if_pos hq, if_pos hq]
      · rw [if_neg hq, if_neg hq]
        exact ih

theorem renameKey_of_absent (r : Row) (a b : String) (h : getVal r a = Option.none) :
    renameKey r a b = r := by
  unfold renameKey
  rw [h]

theorem getVal_renameKey_new (r : Row) (a b : String) (v : Value)
    (h : getVal r a = some v) : getVal (renameKey r a b) b = some v := by
  unfold renameKey
  rw [h]
  exact getVal_setVal_self _ _ _

theorem getVal_renameKey_other (r : Row) (a b q : String) (hqa : q ≠ a) (hqb : q ≠ b) :
    getVal (renameKey r a b) q = getVal r q := by
  unfold renameKey
  cases h : getVal r a with
  | none => rfl
  | some v => rw [getVal_setVal_ne _ _ _ _ hqb, getVal_delKey_ne _ _ _ hqa]

theorem getVal_cleanField_self (r : Row) (k : String)
    (f : Value → Option Value × List String) (v : Value) (h : getVal r k = some v) :
    getVal (cleanField r k f) k = some (optToValue (f v).1) := by
  unfold cleanField
  rw [h]
  exact getVal_setVal_self _ _ _

theorem getVal_cleanField_ne (r : Row) (k q : String)
    (f : Value → Option Value × List String) (h : q ≠ k) :
    getVal (cleanField r k f) q = getVal r q := by
  unfold cleanField
  cases hv : getVal r k with
  | none => rfl
  | some v => exact getVal_setVal_ne _ _ _ _ h

theorem getVal_map_snd (g : Value → Value) (r : Row) (k : String) :
    getVal (r.map fun p => (p.1, g p.2)) k = (getVal r k).map g := by
  induction r with
  | nil => rfl
  | cons p t ih =>
    rw [List.map_cons, getVal_cons p t k, getVal_cons]
    by_cases h : p.1 == k
    · rw [if_pos h, if_pos h]
      rfl
    · rw [if_neg h, if_neg h]
      exact ih

theorem clean_distance_shape (v : Value) :
    (clean_distance v).1 = Option.none ∨
      ∃ d, (clean_distance v).1 = some (.float d) := by
  unfold clean_distance
  by_cases h : is_missing v
  · left; simp [h]
  · cases hm : searchNumber (pyStr v).toList with
    | none => left; simp [h, hm]
    | some mt =>
      right
      refine ⟨(parseFloat (String.mk mt)).getD ⟨0, 0⟩, ?_⟩
      simp [h, hm]

/-! ## Stripping lemmas and Claim C10 -/

theorem head_dropWhile_false {α : Type} (p : α → Bool) (l : List α) (c : α)
    (h : (l.dropWhile p).head? = some c) : p c = false := by
  induction l with
  | nil => cases h
  | cons a t ih =>
    rw [List.dropWhile_cons] at h
    by_cases hp : p a
    · rw [if_pos hp] at h
      exact ih h
    · rw [if_neg hp] at h
      obtain rfl : a = c := by simpa using h
      simp only [Bool.not_eq_true] at hp
      exact hp

theorem getLast_dropWhile {α : Type} (p : α → Bool) (l : List α)
    (h : l.dropWhile p ≠ []) : (l.dropWhile p).getLast? = l.getLast? := by
  induction l with
  | nil => exact absurd rfl h
  | cons a t ih =>
    rw [List.dropWhile_cons] at h ⊢
    by_cases hp : p a
    · rw [if_pos hp] at h ⊢
      rw [ih h]
      have ht : t ≠ [] := by
        intro he
        rw [he] at h
        exact h rfl
      cases t with
      | nil => exact absurd rfl ht
      | cons b u => exact List.getLast?_cons_cons.symm
    · rw [if_neg hp]

theorem stripList_head {l : List Char} {c : Char}
    (h : (stripList l).head? = some c) : isSpace c = false := by
  unfold stripList at h
  rw [List.head?_reverse] at h
  have hne : (l.dropWhile isSpace).reverse.dropWhile isSpace ≠ [] := by
    intro he
    rw [he] at h
    cases h
  rw [getLast_dropWhile _ _ hne, List.getLast?_reverse] at h
  exact head_dropWhile_false _ _ _ h

theorem stripList_getLast {l : List Char} {c : Char}
    (h : (stripList l).getLast? = some c) : isSpace c = false := by
  unfold stripList at h
  rw [List.getLast?_reverse] at h
  exact head_dropWhile_false _ _ _ h

theorem stripList_idem (l : List Char) : stripList (stripList l) = stripList l := by
  cases hs : stripList l with
  | nil => rfl
  | cons c t =>
    have hhead : isSpace c = false := stripList_head (by rw [hs]; rfl)
    show stripList (c :: t) = c :: t
    unfold stripList
    rw [List.dropWhile_cons, if_neg (by simp [hhead])]
    cases hr : (c :: t).reverse with
    | nil => simp at hr
    | cons d u =>
      have hd : (stripList l).getLast? = some d := by
        rw [hs, ← List.head?_reverse, hr]
        rfl
      have hds : isSpace d = false := stripList_getLast hd
      rw [List.dropWhile_cons, if_neg (by simp [hds]), ← hr, List.reverse_reverse]

theorem pyStrip_idem (s : String) : pyStrip (pyStrip s) = pyStrip s := by
  unfold pyStrip
  rw [show (String.mk (stripList s.toList)).toList = stripList s.toList from rfl,
      stripList_idem]

theorem is_missing_pyStrip (s : String) :
    is_missing (.str (pyStrip s)) = is_missing (.str s) := by
  simp only [is_missing, pyStrip_idem]

theorem tidy_string_str (s : String) (h : is_missing (.str s) = false) :
    tidy_string (.str s) = some (.str (pyStrip s)) ∧
    pyStrip (pyStrip s) = pyStrip s ∧ is_missing (.str (pyStrip s)) = false := by
  refine ⟨by simp [tidy_string, h, pyStr], pyStrip_idem s, ?_⟩
  rw [is_missing_pyStrip]
  exact h

/-- **C10** (confirmed).  Every string value in the mapping returned by
`clean_row` is already trimmed (equal to its own stripped form) and is not
missing; whitespace-padded, empty or missing-token strings never appear as
output values (they are replaced by the absent value). -/
theorem clean_row_string_values_tidy (r : Row) (p : String × Value)
    (hp : p ∈ clean_row r) (s : String) (hs : p.2 = Value.str s) :
    pyStrip s = s ∧ is_missing (Value.str s) = false := by
  unfold clean_row tidyRow at hp
  rcases List.mem_map.mp hp with ⟨q, hq, hqe⟩
  have h2 : tidyVal q.2 = Value.str s := by
    rw [← hs, ← hqe]
  cases hv : q.2 with
  | str t =>
    rw [hv] at h2
    simp only [tidyVal] at h2
    by_cases hm : is_missing (.str t) = true
    · rw [show tidy_string (.str t) = Option.none by simp [tidy_string, hm]] at h2
      cases h2
    · have ht := tidy_string_str t (by simpa using hm)
      rw [ht.1] at h2
      have hst : pyStrip t = s := by simpa [optToValue] using h2
      rw [← hst]
      exact ⟨ht.2.1, ht.2.2⟩
  | none =>
    rw [hv] at h2
    exact absurd h2 (by simp [tidyVal])
  | int n =>
    rw [hv] at h2
    exact absurd h2 (by simp [tidyVal])
  | float d =>
    rw [hv] at h2
    exact absurd h2 (by simp [tidyVal])

/-- **C10 witness**: the cleaned row of `{"SomeCol": "  Horse  "}` holds the
string `"Horse"`, which is stripped and non-missing. -/
theorem clean_row_string_values_tidy_witness :
    (("SomeCol", Value.str "Horse") ∈ clean_row [("SomeCol", Value.str "  Horse  ")]) ∧
    pyStrip "Horse" = "Horse" ∧ is_missing (Value.str "Horse") = false := by
  have h := clean_row_string_values_tidy [("SomeCol", Value.str "  Horse  ")]
    ("SomeCol", Value.str "Horse") (by decide) "Horse" rfl
  exact ⟨by decide, h.1, h.2⟩

/-! ## Claim C3 -/

theorem keys_map_snd (r : Row) (g : String → Value → Value) :
    (r.map fun p => (p.1, g p.1 p.2)).map Prod.fst = r.map Prod.fst := by
  rw [List.map_map]
  exact List.map_congr_left fun a _ => rfl

theorem renameCols_id (r : Row) (hraw : ∀ pr ∈ rename_map, getVal r pr.1 = Option.none) :
    renameCols r = r := by
  unfold renameCols rename_map
  rw [List.foldl_cons, List.foldl_cons, List.foldl_cons, List.foldl_cons,
      List.foldl_cons, List.foldl_nil]
  rw [renameKey_of_absent r "Distance" "distance"
        (hraw ("Distance", "distance") (by simp [rename_map])),
      renameKey_of_absent r "Purse" "purse"
        (hraw ("Purse", "purse") (by simp [rename_map])),
      renameKey_of_absent r "Field_size" "field_size"
        (hraw ("Field_size", "field_size") (by simp [rename_map])),
      renameKey_of_absent r "Earnings" "earnings"
        (hraw ("Earnings", "earnings") (by simp [rename_map])),
      renameKey_of_absent r "Final Odds" "final_odds"
        (hraw ("Final Odds", "final_odds") (by simp [rename_map]))]

theorem cleanField_eq_map (r : Row) (k : String) (f : Value → Option Value × List String)
    (hnd : (r.map Prod.fst).Nodup) :
    cleanField r k f = r.map fun p => (p.1, if p.1 = k then optToValue (f p.2).1 else p.2) := by
  cases h : getVal r k with
  | none =>
    have hcf : cleanField r k f = r := by
      unfold cleanField
      rw [h]
    rw [hcf]
    have hk := getVal_eq_none_iff.mp h
    have heach : ∀ p ∈ r, (p.1, if p.1 = k then optToValue (f p.2).1 else p.2) = p :=
      fun p hp => by rw [if_neg (hk p hp)]
    calc r = r.map id := (List.map_id r).symm
      _ = r.map fun p => (p.1, if p.1 = k then optToValue (f p.2).1 else p.2) :=
        List.map_congr_left fun p hp => (heach p hp).symm
  | some v =>
    have hcf : cleanField r k f = setVal r k (optToValue (f v).1) := by
      unfold cleanField
      rw [h]
    rw [hcf]
    have hs : (r.find? fun p => p.1 == k).isSome := by
      unfold getVal at h
      cases hf : (r.find? fun p => p.1 == k) with
      | none => rw [hf] at h; cases h
      | some p => rfl
    unfold setVal
    rw [if_pos hs]
    apply List.map_congr_left
    intro p hp
    by_cases hpk : p.1 == k
    · have h1 : p.1 = k := by simpa using hpk
      have h2 : getVal r k = some p.2 := by
        rw [← h1]
        exact getVal_mem_nodup hnd hp
      have h3 : p.2 = v := by
        rw [h2] at h
        simpa using h
      rw [if_pos hpk, if_pos h1, h3, h1]
    · have h1 : ¬ p.1 = k := by simpa using hpk
      rw [if_neg hpk, if_neg h1]

theorem clean_currency_shape (v : Value) :
    (clean_currency v).1 = Option.none ∨
      ∃ d, (clean_currency v).1 = some (.float d) := by
  unfold clean_currency
  by_cases h : is_missing v
  · left; simp [h]
  · cases v with
    | none => simp [is_missing] at h
    | int n => right; exact ⟨⟨n, 0⟩, by simp [h]⟩
    | float d => right; exact ⟨d, by simp [h]⟩
    | str s =>
      by_cases he : pyStrip (stripCurrencyChars (pyStr (Value.str s))) = ""
      · left; simp [h, he]
      · cases hp : parseFloat (pyStrip (stripCurrencyChars (pyStr (Value.str s)))) with
        | none => left; simp [h, he, hp]
        | some d =>
          right
          refine ⟨d, ?_⟩
          by_cases h1 : Dec.blt d ⟨0, 0⟩ <;> by_cases h2 : Dec.blt ⟨1, 9⟩ d <;>
            simp [h, he, hp, h1, h2]

theorem clean_currency_idem (v : Value) :
    (clean_currency (optToValue (clean_currency v).1)).1 = (clean_currency v).1 := by
  rcases clean_currency_shape v with h | ⟨d, h⟩
  · rw [h]
    simp [optToValue, clean_currency, is_missing]
  · rw [h]
    simp [optToValue, clean_currency, is_missing]

theorem tidyVal_idem (v : Value) : tidyVal (tidyVal v) = tidyVal v := by
  cases v with
  | str s =>
    by_cases h : is_missing (.str s) = true
    · simp [tidyVal, tidy_string, h, optToValue]
    · have ht := tidy_string_str s (by simpa using h)
      have ht2 := tidy_string_str (pyStrip s) ht.2.2
      simp only [tidyVal, ht.1, optToValue, ht2.1, ht.2.1]
  | none => rfl
  | int n => rfl
  | float d => rfl

theorem cleanVal_distance (v : Value) :
    cleanVal "distance" v = optToValue (clean_distance v).1 := by
  unfold cleanVal
  rw [if_pos rfl]
  rcases clean_distance_shape v with h | ⟨d, h⟩ <;> rw [h] <;> rfl

theorem cleanVal_purse (v : Value) :
    cleanVal "purse" v = optToValue (clean_currency v).1 := by
  unfold cleanVal
  rw [if_neg (by decide), if_pos rfl]
  rcases clean_currency_shape v with h | ⟨d, h⟩ <;> rw [h] <;> rfl

theorem cleanVal_earnings (v : Value) :
    cleanVal "earnings" v = optToValue (clean_currency v).1 := by
  unfold cleanVal
  rw [if_neg (by decide), if_neg (by decide), if_pos rfl]
  rcases clean_currency_shape v with h | ⟨d, h⟩ <;> rw [h] <;> rfl

theorem cleanVal_other (k : String) (v : Value) (h1 : k ≠ "distance") (h2 : k ≠ "purse")
    (h3 : k ≠ "earnings") : cleanVal k v = tidyVal v := by
  unfold cleanVal
  rw [if_neg h1, if_neg h2, if_neg h3]

theorem cleanVal_idem (k : String) (v : Value)
    (hd : k = "distance" →
      (clean_distance (optToValue (clean_distance v).1)).1 = (clean_distance v).1) :
    cleanVal k (cleanVal k v) = cleanVal k v := by
  by_cases h1 : k = "distance"
  · subst h1
    rw [cleanVal_distance v, cleanVal_distance, hd rfl]
  · by_cases h2 : k = "purse"
    · subst h2
      rw [cleanVal_purse v, cleanVal_purse, clean_currency_idem v]
    · by_cases h3 : k = "earnings"
      · subst h3
        rw [cleanVal_earnings v, cleanVal_earnings, clean_currency_idem v]
      · rw [cleanVal_other k v h1 h2 h3, cleanVal_other k _ h1 h2 h3, tidyVal_idem v]

theorem clean_row_eq_map (r : Row) (hnd : (r.map Prod.fst).Nodup)
    (hraw : ∀ pr ∈ rename_map, getVal r pr.1 = Option.none) :
    clean_row r = r.map fun p => (p.1, cleanVal p.1 p.2) := by
  unfold clean_row
  rw [renameCols_id r hraw]
  rw [cleanField_eq_map r "distance" clean_distance hnd]
  have hnd1 : (((r.map fun p => (p.1, if p.1 = "distance"
      then optToValue (clean_distance p.2).1 else p.2))).map Prod.fst).Nodup := by
    rw [keys_map_snd r fun a v => if a = "distance" then optToValue (clean_distance v).1 else v]
    exact hnd
  rw [cleanField_eq_map _ "purse" clean_currency hnd1]
  have hnd2 : ((((r.map fun p => (p.1, if p.1 = "distance"
      then optToValue (clean_distance p.2).1 else p.2)).map fun p => (p.1, if p.1 = "purse"
      then optToValue (clean_currency p.2).1 else p.2)).map Prod.fst)).Nodup := by
    rw [keys_map_snd _ fun a v => if a = "purse" then optToValue (clean_currency v).1 else v,
        keys_map_snd r fun a v => if a = "distance" then optToValue (clean_distance v).1 else v]
    exact hnd
  rw [cleanField_eq_map _ "earnings" clean_currency hnd2]
  unfold tidyRow
  rw [List.map_map, List.map_map, List.map_map]
  apply List.map_congr_left
  intro p hp
  simp only [Function.comp_apply]
  by_cases h1 : p.1 = "distance"
  · rw [h1, cleanVal_distance, if_neg (by decide), if_neg (by decide), if_pos rfl]
    rcases clean_distance_shape p.2 with h | ⟨d, h⟩ <;> rw [h] <;> rfl
  · by_cases h2 : p.1 = "purse"
    · rw [h2, cleanVal_purse, if_neg (by decide), if_pos rfl, if_neg (by decide)]
      rcases clean_currency_shape p.2 with h | ⟨d, h⟩ <;> rw [h] <;> rfl
    · by_cases h3 : p.1 = "earnings"
      · rw [h3, cleanVal_earnings, if_pos rfl, if_neg (by decide), if_neg (by decide)]
        rcases clean_currency_shape p.2 with h | ⟨d, h⟩ <;> rw [h] <;> rfl
      · rw [cleanVal_other p.1 p.2 h1 h2 h3, if_neg h3, if_neg h2, if_neg h1]

/-! ## Claim C9 -/

/-- **C9** (confirmed).  For every entry `(raw, new)` of the rename table,
when a row contains the raw key — possibly alongside its canonical
counterpart — the rename phase `out[new] = out.pop(raw)` binds the canonical
key to the raw key's value, discarding any previous canonical binding (the
raw value wins the collision), and `clean_row`'s slot at the canonical key
holds that raw value after the key-appropriate cleaning and tidying
(`cleanVal`). -/
theorem clean_row_raw_key_wins (r : Row) (raw nw : String) (a : Value)
    (hmem : (raw, nw) ∈ rename_map) (hraw : getVal r raw = some a) :
    getVal (renameCols r) nw = some a ∧
    getVal (clean_row r) nw = some (cleanVal nw a) := by
  have hfold : renameCols r =
      renameKey (renameKey (renameKey (renameKey (renameKey r "Distance" "distance")
        "Purse" "purse") "Field_size" "field_size") "Earnings" "earnings")
        "Final Odds" "final_odds" := by
    unfold renameCols rename_map
    rw [List.foldl_cons, List.foldl_cons, List.foldl_cons, List.foldl_cons,
        List.foldl_cons, List.foldl_nil]
  simp only [rename_map, List.mem_cons, List.not_mem_nil, or_false,
    Prod.mk.injEq] at hmem
  rcases hmem with ⟨rfl, rfl⟩ | ⟨rfl, rfl⟩ | ⟨rfl, rfl⟩ | ⟨rfl, rfl⟩ | ⟨rfl, rfl⟩
  · have h1 : getVal (renameCols r) "distance" = some a := by
      rw [hfold]
      rw [getVal_renameKey_other _ "Final Odds" "final_odds" _ (by decide) (by decide),
          getVal_renameKey_other _ "Earnings" "earnings" _ (by decide) (by decide),
          getVal_renameKey_other _ "Field_size" "field_size" _ (by decide) (by decide),
          getVal_renameKey_other _ "Purse" "purse" _ (by decide) (by decide)]
      exact getVal_renameKey_new _ _ _ _ hraw
    refine ⟨h1, ?_⟩
    unfold clean_row tidyRow
    rw [getVal_map_snd]
    rw [getVal_cleanField_ne _ _ _ _ (by decide : ("distance" : String) ≠ "earnings"),
        getVal_cleanField_ne _ _ _ _ (by decide : ("distance" : String) ≠ "purse"),
        getVal_cleanField_self _ _ _ _ h1]
    rw [cleanVal_distance]
    rcases clean_distance_shape a with h | ⟨d, h⟩ <;> rw [h] <;> rfl
  · have h1 : getVal (renameCols r) "purse" = some a := by
      rw [hfold]
      rw [getVal_renameKey_other _ "Final Odds" "final_odds" _ (by decide) (by decide),
          getVal_renameKey_other _ "Earnings" "earnings" _ (by decide) (by decide),
          getVal_renameKey_other _ "Field_size" "field_size" _ (by decide) (by decide)]
      refine getVal_renameKey_new _ _ _ _ ?_
      rw [getVal_renameKey_other _ "Distance" "distance" _ (by decide) (by decide)]
      exact hraw
    refine ⟨h1, ?_⟩
    unfold clean_row tidyRow
    rw [getVal_map_snd]
    have h2 : getVal (cleanField (renameCols r) "distance" clean_distance) "purse" =
        some a := by
      rw [getVal_cleanField_ne _ _ _ _ (by decide : ("purse" : String) ≠ "distance")]
      exact h1
    rw [getVal_cleanField_ne _ _ _ _ (by decide : ("purse" : String) ≠ "earnings"),
        getVal_cleanField_self _ _ _ _ h2]
    rw [cleanVal_purse]
    rcases clean_currency_shape a with h | ⟨d, h⟩ <;> rw [h] <;> rfl
  · have h1 : getVal (renameCols r) "field_size" = some a := by
      rw [hfold]
      rw [getVal_renameKey_other _ "Final Odds" "final_odds" _ (by decide) (by decide),
          getVal_renameKey_other _ "Earnings" "earnings" _ (by decide) (by decide)]
      refine getVal_renameKey_new _ _ _ _ ?_
      rw [getVal_renameKey_other _ "Purse" "purse" _ (by decide) (by decide),
          getVal_renameKey_other _ "Distance" "distance" _ (by decide) (by decide)]
      exact hraw
    refine ⟨h1, ?_⟩
    unfold clean_row tidyRow
    rw [getVal_map_snd]
    rw [getVal_cleanField_ne _ _ _ _ (by decide : ("field_size" : String) ≠ "earnings"),
        getVal_cleanField_ne _ _ _ _ (by decide : ("field_size" : String) ≠ "purse"),
        getVal_cleanField_ne _ _ _ _ (by decide : ("field_size" : String) ≠ "distance"),
        h1]
    rw [cleanVal_other _ _ (by decide) (by decide) (by decide)]
    rfl
  · have h1 : getVal (renameCols r) "earnings" = some a := by
      rw [hfold]
      rw [getVal_renameKey_other _ "Final Odds" "final_odds" _ (by decide) (by decide)]
      refine getVal_renameKey_new _ _ _ _ ?_
      rw [getVal_renameKey_other _ "Field_size" "field_size" _ (by decide) (by decide),
          getVal_renameKey_other _ "Purse" "purse" _ (by decide) (by decide),
          getVal_renameKey_other _ "Distance" "distance" _ (by decide) (by decide)]
      exact hraw
    refine ⟨h1, ?_⟩
    unfold clean_row tidyRow
    rw [getVal_map_snd]
    have h2 : getVal (cleanField (cleanField (renameCols r) "distance" clean_distance)
        "purse" clean_currency) "earnings" = some a := by
      rw [getVal_cleanField_ne _ _ _ _ (by decide : ("earnings" : String) ≠ "purse"),
          getVal_cleanField_ne _ _ _ _ (by decide : ("earnings" : String) ≠ "distance")]
      exact h1
    rw [getVal_cleanField_self _ _ _ _ h2]
    rw [cleanVal_earnings]
    rcases clean_currency_shape a with h | ⟨d, h⟩ <;> rw [h] <;> rfl
  · have h1 : getVal (renameCols r) "final_odds" = some a := by
      rw [hfold]
      refine getVal_renameKey_new _ _ _ _ ?_
      rw [getVal_renameKey_other _ "Earnings" "earnings" _ (by decide) (by decide),
          getVal_renameKey_other _ "Field_size" "field_size" _ (by decide) (by decide),
          getVal_renameKey_other _ "Purse" "purse" _ (by decide) (by decide),
          getVal_renameKey_other _ "Distance" "distance" _ (by decide) (by decide)]
      exact hraw
    refine ⟨h1, ?_⟩
    unfold clean_row tidyRow
    rw [getVal_map_snd]
    rw [getVal_cleanField_ne _ _ _ _ (by decide : ("final_odds" : String) ≠ "earnings"),
        getVal_cleanField_ne _ _ _ _ (by decide : ("final_odds" : String) ≠ "purse"),
        getVal_cleanField_ne _ _ _ _ (by decide : ("final_odds" : String) ≠ "distance"),
        h1]
    rw [cleanVal_other _ _ (by decide) (by decide) (by decide)]
    rfl

/-- **C9 witness**: `clean_row_raw_key_wins` at the rename pair
`("Purse", "purse")` on a row holding both keys; the raw value `" $1,200 "`
wins the collision and is currency-cleaned in the output. -/
theorem clean_row_raw_key_wins_witness :
    ("Purse", "purse") ∈ rename_map ∧
    getVal [("Purse", Value.str " $1,200 "), ("purse", Value.int 7)] "Purse" =
      some (Value.str " $1,200 ") ∧
    getVal (renameCols [("Purse", Value.str " $1,200 "), ("purse", Value.int 7)])
      "purse" = some (Value.str " $1,200 ") ∧
    getVal (clean_row [("Purse", Value.str " $1,200 "), ("purse", Value.int 7)])
      "purse" = some (cleanVal "purse" (Value.str " $1,200 ")) := by
  have h := clean_row_raw_key_wins
    [("Purse", Value.str " $1,200 "), ("purse", Value.int 7)]
    "Purse" "purse" (Value.str " $1,200 ") (by decide) (by decide)
  exact ⟨by decide, by decide, h.1, h.2⟩

/-! ## Claim C6 -/

theorem takeWhile_all_append {α : Type} (p : α → Bool) (u rest : List α)
    (hu : ∀ c ∈ u, p c = true) :
    (u ++ rest).takeWhile p = u ++ rest.takeWhile p ∧
    (u ++ rest).dropWhile p = rest.dropWhile p := by
  induction u with
  | nil => exact ⟨rfl, rfl⟩
  | cons a t ih =>
    have ha : p a = true := hu a (List.mem_cons_self a t)
    have iht := ih fun c hc => hu c (List.mem_cons_of_mem a hc)
    constructor
    · simp [List.takeWhile_cons, ha, iht.1]
    · simp [List.dropWhile_cons, ha, iht.2]

theorem matchBody_sound {rest b : List Char} (h : matchBody rest = some b) :
    ∃ post, rest = b ++ post ∧ IsBodyToken b := by
  simp only [matchBody] at h
  have hsplit : rest = rest.takeWhile Char.isDigit ++ rest.dropWhile Char.isDigit :=
    (List.takeWhile_append_dropWhile _ _).symm
  have hdsd : ∀ c ∈ rest.takeWhile Char.isDigit, c.isDigit = true :=
    fun c hc => List.mem_takeWhile_imp hc
  by_cases hds : (rest.takeWhile Char.isDigit).isEmpty
  · rw [if_pos hds] at h
    cases h
  · rw [if_neg hds] at h
    have hdsne : rest.takeWhile Char.isDigit ≠ [] := by simpa using hds
    cases hr : rest.dropWhile Char.isDigit with
    | nil =>
      rw [hr] at h
      simp only [] at h
      obtain rfl : rest.takeWhile Char.isDigit = b := Option.some.inj h
      exact ⟨rest.dropWhile Char.isDigit, hsplit, rest.takeWhile Char.isDigit, [],
        (List.append_nil _).symm, hdsne, hdsd, Or.inl rfl⟩
    | cons c t =>
      rw [hr] at h
      simp only [] at h
      by_cases hc : c = '.'
      · rw [if_pos hc] at h
        by_cases hfs : (t.takeWhile Char.isDigit).isEmpty
        · rw [if_pos hfs] at h
          obtain rfl : rest.takeWhile Char.isDigit = b := Option.some.inj h
          exact ⟨rest.dropWhile Char.isDigit, hsplit, rest.takeWhile Char.isDigit, [],
            (List.append_nil _).symm, hdsne, hdsd, Or.inl rfl⟩
        · rw [if_neg hfs] at h
          obtain rfl : rest.takeWhile Char.isDigit ++ '.' :: t.takeWhile Char.isDigit = b :=
            Option.some.inj h
          have hfsne : t.takeWhile Char.isDigit ≠ [] := by simpa using hfs
          have hfsd : ∀ x ∈ t.takeWhile Char.isDigit, x.isDigit = true :=
            fun x hx => List.mem_takeWhile_imp hx
          refine ⟨t.dropWhile Char.isDigit, ?_, rest.takeWhile Char.isDigit,
            '.' :: t.takeWhile Char.isDigit, rfl, hdsne, hdsd,
            Or.inr ⟨t.takeWhile Char.isDigit, rfl, hfsne, hfsd⟩⟩
          conv_lhs => rw [hsplit, hr, hc]
          conv_lhs =>
            rw [show t = t.takeWhile Char.isDigit ++ t.dropWhile Char.isDigit from
              (List.takeWhile_append_dropWhile _ _).symm]
          simp [List.append_assoc]
      · rw [if_neg hc] at h
        obtain rfl : rest.takeWhile Char.isDigit = b := Option.some.inj h
        exact ⟨rest.dropWhile Char.isDigit, hsplit, rest.takeWhile Char.isDigit, [],
          (List.append_nil _).symm, hdsne, hdsd, Or.inl rfl⟩

theorem matchBody_eq_none {rest : List Char} (h : matchBody rest = Option.none) :
    rest.takeWhile Char.isDigit = [] := by
  simp only [matchBody] at h
  by_cases hds : (rest.takeWhile Char.isDigit).isEmpty
  · simpa using hds
  · rw [if_neg hds] at h
    exfalso
    cases hr : rest.dropWhile Char.isDigit with
    | nil =>
      rw [hr] at h
      simp only [] at h
      cases h
    | cons c t =>
      rw [hr] at h
      simp only [] at h
      by_cases hc : c = '.'
      · rw [if_pos hc] at h
        by_cases hfs : (t.takeWhile Char.isDigit).isEmpty
        · rw [if_pos hfs] at h
          cases h
        · rw [if_neg hfs] at h
          cases h
      · rw [if_neg hc] at h
        cases h

theorem matchBody_none {rest : List Char} (h : matchBody rest = Option.none)
    (b post : List Char) (hdec : rest = b ++ post) (htok : IsBodyToken b) : False := by
  have he := matchBody_eq_none h
  obtain ⟨ds, fr, hb, hdsne, hdsd, hfr⟩ := htok
  cases ds with
  | nil => exact hdsne rfl
  | cons d dt =>
    have hd : d.isDigit = true := hdsd d (List.mem_cons_self d dt)
    have hrest : rest = d :: (dt ++ (fr ++ post)) := by
      rw [hdec, hb]
      simp [List.append_assoc]
    rw [hrest, List.takeWhile_cons, if_pos hd] at he
    cases he

theorem matchBody_maximal {rest b : List Char} (h : matchBody rest = some b)
    (b2 post2 : List Char) (hdec : rest = b2 ++ post2) (htok : IsBodyToken b2) :
    b2.length ≤ b.length := by
  obtain ⟨ds2, fr2, hb2, hds2ne, hds2d, hfr2⟩ := htok
  simp only [matchBody] at h
  have hds2pre : rest.takeWhile Char.isDigit =
      ds2 ++ (fr2 ++ post2).takeWhile Char.isDigit := by
    rw [hdec, hb2, List.append_assoc]
    exact (takeWhile_all_append Char.isDigit ds2 (fr2 ++ post2) hds2d).1
  by_cases hds : (rest.takeWhile Char.isDigit).isEmpty
  · rw [if_pos hds] at h
    cases h
  · rw [if_neg hds] at h
    rcases hfr2 with hfr2 | ⟨fd, hfd, hfdne, hfdd⟩
    · -- fr2 = []: b2 = ds2, a prefix of the matched digit run, itself a prefix of b
      have hlen : ds2.length ≤ (rest.takeWhile Char.isDigit).length := by
        rw [hds2pre]
        simp
      have hble : (rest.takeWhile Char.isDigit).length ≤ b.length := by
        cases hr : rest.dropWhile Char.isDigit with
        | nil =>
          rw [hr] at h
          simp only [] at h
          obtain rfl : rest.takeWhile Char.isDigit = b := Option.some.inj h
          exact le_refl _
        | cons c t =>
          rw [hr] at h
          simp only [] at h
          by_cases hc : c = '.'
          · rw [if_pos hc] at h
            by_cases hfs : (t.takeWhile Char.isDigit).isEmpty
            · rw [if_pos hfs] at h
              obtain rfl : rest.takeWhile Char.isDigit = b := Option.some.inj h
              exact le_refl _
            · rw [if_neg hfs] at h
              obtain rfl : rest.takeWhile Char.isDigit ++ '.' :: t.takeWhile Char.isDigit
                  = b := Option.some.inj h
              simp
          · rw [if_neg hc] at h
            obtain rfl : rest.takeWhile Char.isDigit = b := Option.some.inj h
            exact le_refl _
      rw [hb2, hfr2, List.append_nil]
      exact le_trans hlen hble
    · -- fr2 = '.' :: fd
      have hnd : ('.' : Char).isDigit = false := by decide
      have htw : (fr2 ++ post2).takeWhile Char.isDigit = [] := by
        rw [hfd, List.cons_append, List.takeWhile_cons, if_neg (by simp [hnd])]
      have hds2eq : rest.takeWhile Char.isDigit = ds2 := by
        rw [hds2pre, htw, List.append_nil]
      have hdw : rest.dropWhile Char.isDigit = '.' :: (fd ++ post2) := by
        have h1 : rest = ds2 ++ (fr2 ++ post2) := by
          rw [hdec, hb2, List.append_assoc]
        rw [h1, (takeWhile_all_append Char.isDigit ds2 (fr2 ++ post2) hds2d).2, hfd,
            List.cons_append, List.dropWhile_cons, if_neg (by simp [hnd])]
      rw [hdw] at h
      simp only [] at h
      rw [if_pos trivial] at h
      have hfdpre : (fd ++ post2).takeWhile Char.isDigit =
          fd ++ post2.takeWhile Char.isDigit :=
        (takeWhile_all_append Char.isDigit fd post2 hfdd).1
      have hfsne : ¬ ((fd ++ post2).takeWhile Char.isDigit).isEmpty = true := by
        rw [hfdpre]
        cases fd with
        | nil => exact absurd rfl hfdne
        | cons x xt => simp
      rw [if_neg hfsne] at h
      obtain rfl : rest.takeWhile Char.isDigit ++ '.' :: (fd ++ post2).takeWhile Char.isDigit
          = b := Option.some.inj h
      rw [hb2, hfd, ← hds2eq]
      simp only [List.length_append, List.length_cons, hfdpre]
      have hle : fd.length ≤ (fd ++ post2.takeWhile Char.isDigit).length := by simp
      omega

theorem splitSign_append (cs : List Char) : cs = (splitSign cs).1 ++ (splitSign cs).2 := by
  cases cs with
  | nil => rfl
  | cons c t =>
    by_cases h : (c = '+' || c = '-') = true
    · simp [splitSign, h]
    · simp [splitSign, h]

theorem splitSign_shape (cs : List Char) :
    (splitSign cs).1 = [] ∨ (splitSign cs).1 = ['+'] ∨ (splitSign cs).1 = ['-'] := by
  cases cs with
  | nil => left; rfl
  | cons c t =>
    by_cases hp : c = '+'
    · subst hp
      right; left
      simp [splitSign]
    · by_cases hm : c = '-'
      · subst hm
        right; right
        simp [splitSign]
      · left
        simp [splitSign, hp, hm]

theorem splitSign_token_split (cs sg2 rest2 : List Char)
    (hdec : cs = sg2 ++ rest2)
    (hsg : sg2 = [] ∨ sg2 = ['+'] ∨ sg2 = ['-'])
    (hrest : ∃ d t, rest2 = d :: t ∧ d.isDigit = true) :
    (splitSign cs).1 = sg2 ∧ (splitSign cs).2 = rest2 := by
  obtain ⟨d, t, hr, hd⟩ := hrest
  have hp : d ≠ '+' := fun he => absurd hd (by rw [he]; decide)
  have hm : d ≠ '-' := fun he => absurd hd (by rw [he]; decide)
  rcases hsg with h | h | h
  · subst h
    rw [List.nil_append] at hdec
    rw [hdec, hr]
    constructor
    · simp [splitSign, hp, hm]
    · simp [splitSign, hp, hm]
  · subst h
    rw [hdec]
    constructor
    · simp [splitSign]
    · simp [splitSign]
  · subst h
    rw [hdec]
    constructor
    · simp [splitSign]
    · simp [splitSign]

theorem matchNumAt_sound {cs mt : List Char} (h : matchNumAt cs = some mt) :
    ∃ post, cs = mt ++ post ∧ IsNumToken mt := by
  unfold matchNumAt at h
  cases hb : matchBody (splitSign cs).2 with
  | none => rw [hb] at h; cases h
  | some b =>
    rw [hb] at h
    simp only [Option.map_some'] at h
    obtain rfl : (splitSign cs).1 ++ b = mt := Option.some.inj h
    obtain ⟨post, hdec, htok⟩ := matchBody_sound hb
    obtain ⟨ds, fr, hbb, hdsne, hdsd, hfr⟩ := htok
    refine ⟨post, ?_, (splitSign cs).1, ds, fr, by rw [hbb, List.append_assoc],
      splitSign_shape cs, hdsne, hdsd, hfr⟩
    conv_lhs => rw [splitSign_append cs]
    rw [hdec, List.append_assoc]

theorem matchNumAt_maximal {cs mt : List Char} (h : matchNumAt cs = some mt)
    (mt2 post2 : List Char) (hdec : cs = mt2 ++ post2) (htok : IsNumToken mt2) :
    mt2.length ≤ mt.length := by
  unfold matchNumAt at h
  cases hb : matchBody (splitSign cs).2 with
  | none => rw [hb] at h; cases h
  | some b =>
    rw [hb] at h
    simp only [Option.map_some'] at h
    obtain rfl : (splitSign cs).1 ++ b = mt := Option.some.inj h
    obtain ⟨sg2, ds2, fr2, hmt2, hsg2, hds2ne, hds2d, hfr2⟩ := htok
    have hdig : ∃ d t, ds2 ++ (fr2 ++ post2) = d :: t ∧ d.isDigit = true := by
      cases ds2 with
      | nil => exact absurd rfl hds2ne
      | cons d dt =>
        exact ⟨d, dt ++ (fr2 ++ post2), by simp, hds2d d (List.mem_cons_self d dt)⟩
    have hcsdec : cs = sg2 ++ (ds2 ++ (fr2 ++ post2)) := by
      rw [hdec, hmt2]
      simp [List.append_assoc]
    have hsp := splitSign_token_split cs sg2 (ds2 ++ (fr2 ++ post2)) hcsdec hsg2 hdig
    have hdec2 : (splitSign cs).2 = (ds2 ++ fr2) ++ post2 := by
      rw [hsp.2, List.append_assoc]
    have hmax := matchBody_maximal hb (ds2 ++ fr2) post2 hdec2
      ⟨ds2, fr2, rfl, hds2ne, hds2d, hfr2⟩
    rw [hmt2, ← hsp.1]
    simp only [List.length_append] at hmax ⊢
    omega

theorem matchNumAt_none {cs : List Char} (h : matchNumAt cs = Option.none)
    (mt2 post2 : List Char) (hdec : cs = mt2 ++ post2) (htok : IsNumToken mt2) : False := by
  unfold matchNumAt at h
  cases hb : matchBody (splitSign cs).2 with
  | some b => rw [hb] at h; cases h
  | none =>
    obtain ⟨sg2, ds2, fr2, hmt2, hsg2, hds2ne, hds2d, hfr2⟩ := htok
    have hdig : ∃ d t, ds2 ++ (fr2 ++ post2) = d :: t ∧ d.isDigit = true := by
      cases ds2 with
      | nil => exact absurd rfl hds2ne
      | cons d dt =>
        exact ⟨d, dt ++ (fr2 ++ post2), by simp, hds2d d (List.mem_cons_self d dt)⟩
    have hcsdec : cs = sg2 ++ (ds2 ++ (fr2 ++ post2)) := by
      rw [hdec, hmt2]
      simp [List.append_assoc]
    have hsp := splitSign_token_split cs sg2 (ds2 ++ (fr2 ++ post2)) hcsdec hsg2 hdig
    have hdec2 : (splitSign cs).2 = (ds2 ++ fr2) ++ post2 := by
      rw [hsp.2, List.append_assoc]
    exact matchBody_none hb (ds2 ++ fr2) post2 hdec2 ⟨ds2, fr2, rfl, hds2ne, hds2d, hfr2⟩

theorem IsNumToken.ne_nil {mt : List Char} (htok : IsNumToken mt) : mt ≠ [] := by
  obtain ⟨sg, ds, fr, hmt, hsg, hdsne, hdsd, hfr⟩ := htok
  intro he
  rw [he] at hmt
  have h1 : sg ++ ds = [] := (List.append_eq_nil.mp hmt.symm).1
  exact hdsne (List.append_eq_nil.mp h1).2

theorem searchNumber_sound {cs mt : List Char} (h : searchNumber cs = some mt) :
    ∃ pre post, cs = pre ++ mt ++ post ∧ IsNumToken mt ∧
      ∀ pre2 mt2 post2, cs = pre2 ++ mt2 ++ post2 → IsNumToken mt2 →
        pre.length < pre2.length ∨ (pre2.length = pre.length ∧ mt2.length ≤ mt.length) := by
  induction cs with
  | nil => cases h
  | cons c t ih =>
    unfold searchNumber at h
    cases hm : matchNumAt (c :: t) with
    | some m =>
      rw [hm] at h
      obtain rfl : m = mt := Option.some.inj h
      obtain ⟨post, hdec, htok⟩ := matchNumAt_sound hm
      refine ⟨[], post, by rw [List.nil_append, hdec], htok, ?_⟩
      intro pre2 mt2 post2 hdec2 htok2
      cases pre2 with
      | nil =>
        right
        refine ⟨rfl, ?_⟩
        rw [List.nil_append] at hdec2
        exact matchNumAt_maximal hm mt2 post2 hdec2 htok2
      | cons a u => left; simp
    | none =>
      rw [hm] at h
      obtain ⟨pre, post, hdec, htok, hmin⟩ := ih h
      refine ⟨c :: pre, post, by rw [List.cons_append, List.cons_append, ← hdec], htok, ?_⟩
      intro pre2 mt2 post2 hdec2 htok2
      cases pre2 with
      | nil =>
        rw [List.nil_append] at hdec2
        exact absurd htok2 (fun ht => matchNumAt_none hm mt2 post2 hdec2 ht)
      | cons a u =>
        have ha : a = c ∧ t = u ++ mt2 ++ post2 := by
          rw [List.cons_append, List.cons_append] at hdec2
          exact ⟨(List.cons.inj hdec2).1.symm, (List.cons.inj hdec2).2⟩
        rcases hmin u mt2 post2 ha.2 htok2 with h1 | ⟨h1, h2⟩
        · left; simpa using h1
        · right; exact ⟨by simpa using h1, h2⟩

theorem searchNumber_none {cs : List Char} (h : searchNumber cs = Option.none)
    (pre mt post : List Char) (hdec : cs = pre ++ mt ++ post) (htok : IsNumToken mt) :
    False := by
  induction cs generalizing pre with
  | nil =>
    cases pre with
    | nil =>
      rw [List.nil_append] at hdec
      cases mt with
      | nil => exact htok.ne_nil rfl
      | cons a u => cases hdec
    | cons a u => cases hdec
  | cons c t ih =>
    unfold searchNumber at h
    cases hm : matchNumAt (c :: t) with
    | some m => rw [hm] at h; cases h
    | none =>
      rw [hm] at h
      cases pre with
      | nil =>
        rw [List.nil_append] at hdec
        exact matchNumAt_none hm mt post hdec htok
      | cons a u =>
        rw [List.cons_append, List.cons_append] at hdec
        exact ih h u (List.cons.inj hdec).2

theorem takeWhile_all {α : Type} (p : α → Bool) (u : List α)
    (hu : ∀ c ∈ u, p c = true) : u.takeWhile p = u ∧ u.dropWhile p = [] := by
  have h := takeWhile_all_append p u [] hu
  simpa using h

theorem parseFloat_of_token {mt : List Char} (htok : IsNumToken mt) :
    ∃ d, parseFloat (String.mk mt) = some d := by
  obtain ⟨sg, ds, fr, hmt, hsg, hdsne, hdsd, hfr⟩ := htok
  have hdig : ∃ d t, ds ++ fr = d :: t ∧ d.isDigit = true := by
    cases ds with
    | nil => exact absurd rfl hdsne
    | cons d dt => exact ⟨d, dt ++ fr, by simp, hdsd d (List.mem_cons_self d dt)⟩
  have hmt2 : mt = sg ++ (ds ++ fr) := by rw [hmt, List.append_assoc]
  have hsp := splitSign_token_split mt sg (ds ++ fr) hmt2 hsg hdig
  have htl : (String.mk mt).toList = mt := rfl
  have hdse : ds.isEmpty = false := by
    cases ds with
    | nil => exact absurd rfl hdsne
    | cons a t => rfl
  rcases hfr with hfr | ⟨fd, hfd, hfdne, hfdd⟩
  · subst hfr
    have e1 : (ds ++ ([] : List Char)).takeWhile Char.isDigit = ds := by
      rw [List.append_nil]
      exact (takeWhile_all Char.isDigit ds hdsd).1
    have e2 : (ds ++ ([] : List Char)).dropWhile Char.isDigit = [] := by
      rw [List.append_nil]
      exact (takeWhile_all Char.isDigit ds hdsd).2
    refine ⟨⟨signVal sg * (digitsToNat (ds ++ []) : Int), 0⟩, ?_⟩
    simp only [parseFloat, htl, hsp.1, hsp.2, e1, e2, hdse]
    simp
  · subst hfd
    have hnd : ('.' : Char).isDigit = false := by decide
    have e1 : (ds ++ '.' :: fd).takeWhile Char.isDigit = ds := by
      rw [(takeWhile_all_append Char.isDigit ds ('.' :: fd) hdsd).1,
          List.takeWhile_cons, if_neg (by simp [hnd]), List.append_nil]
    have e2 : (ds ++ '.' :: fd).dropWhile Char.isDigit = '.' :: fd := by
      rw [(takeWhile_all_append Char.isDigit ds ('.' :: fd) hdsd).2,
          List.dropWhile_cons, if_neg (by simp [hnd])]
    have e3 : fd.takeWhile Char.isDigit = fd := (takeWhile_all Char.isDigit fd hfdd).1
    have e4 : fd.dropWhile Char.isDigit = [] := (takeWhile_all Char.isDigit fd hfdd).2
    refine ⟨⟨signVal sg * (digitsToNat (ds ++ fd) : Int), -(fd.length : Int)⟩, ?_⟩
    simp only [parseFloat, htl, hsp.1, hsp.2, e1, e2, e3, e4, hdse]
    simp

/-- **C6** (confirmed).  `clean_distance` never emits a warning; it is absent
on missing input; and on non-missing input it either returns the parse of the
first (leftmost, then longest) substring of the value's text form matching
`[+-]?digits(.digits)?`, or is absent when no substring matches the
pattern. -/
theorem clean_distance_spec (v : Value) :
    (clean_distance v).2 = [] ∧
    (is_missing v = true → (clean_distance v).1 = Option.none) ∧
    (is_missing v = false →
      ((∃ pre mt post, (pyStr v).toList = pre ++ mt ++ post ∧ IsNumToken mt ∧
        (∀ pre2 mt2 post2, (pyStr v).toList = pre2 ++ mt2 ++ post2 → IsNumToken mt2 →
          pre.length < pre2.length ∨ (pre2.length = pre.length ∧ mt2.length ≤ mt.length)) ∧
        ∃ d, parseFloat (String.mk mt) = some d ∧ (clean_distance v).1 = some (.float d)) ∨
      ((¬ ∃ pre mt post, (pyStr v).toList = pre ++ mt ++ post ∧ IsNumToken mt) ∧
        (clean_distance v).1 = Option.none))) := by
  refine ⟨?_, ?_, ?_⟩
  · unfold clean_distance
    by_cases h : is_missing v
    · rw [if_pos h]
    · rw [if_neg h]
      cases hm : searchNumber (pyStr v).toList <;> simp
  · intro h
    unfold clean_distance
    rw [if_pos h]
  · intro h
    unfold clean_distance
    rw [if_neg (by simp [h])]
    cases hm : searchNumber (pyStr v).toList with
    | none =>
      right
      refine ⟨?_, by simp⟩
      rintro ⟨pre, mt, post, hdec, htok⟩
      exact searchNumber_none hm pre mt post hdec htok
    | some mt =>
      left
      obtain ⟨pre, post, hdec, htok, hmin⟩ := searchNumber_sound hm
      obtain ⟨d, hd⟩ := parseFloat_of_token htok
      refine ⟨pre, mt, post, hdec, htok, hmin, d, hd, ?_⟩
      simp [hd]

/-- **C6 witness**: `clean_distance_spec` applied to the missing value `None`
and to the string `"4.32F"`. -/
theorem clean_distance_spec_witness :
    (is_missing Value.none = true ∧ (clean_distance Value.none).1 = Option.none) ∧
    is_missing (Value.str "4.32F") = false ∧
    ((∃ pre mt post, (pyStr (Value.str "4.32F")).toList = pre ++ mt ++ post ∧
        IsNumToken mt ∧
        (∀ pre2 mt2 post2,
          (pyStr (Value.str "4.32F")).toList = pre2 ++ mt2 ++ post2 → IsNumToken mt2 →
          pre.length < pre2.length ∨ (pre2.length = pre.length ∧ mt2.length ≤ mt.length)) ∧
        ∃ d, parseFloat (String.mk mt) = some d ∧
          (clean_distance (Value.str "4.32F")).1 = some (.float d)) ∨
      ((¬ ∃ pre mt post, (pyStr (Value.str "4.32F")).toList = pre ++ mt ++ post ∧
          IsNumToken mt) ∧
        (clean_distance (Value.str "4.32F")).1 = Option.none)) :=
  ⟨⟨by decide, (clean_distance_spec Value.none).2.1 (by decide)⟩, by decide,
   (clean_distance_spec (Value.str "4.32F")).2.2 (by decide)⟩

/-! ## Claim C4 -/

theorem pyValEq_refl (a : Value) : pyValEq a a = true := by
  cases a with
  | none => rfl
  | str s => simp [pyValEq]
  | int n => simp [pyValEq]
  | float d => simp [pyValEq, Dec.beq_iff]

theorem toRat_int (n : Int) : Dec.toRat ⟨n, 0⟩ = (n : ℚ) := by
  simp [Dec.toRat]

theorem pyValEq_symm {a b : Value} (h : pyValEq a b = true) : pyValEq b a = true := by
  cases a <;> cases b <;> simp_all [pyValEq, Dec.beq_iff, toRat_int]

theorem pyValEq_trans {a b c : Value} (h1 : pyValEq a b = true) (h2 : pyValEq b c = true) :
    pyValEq a c = true := by
  cases a <;> cases b <;> cases c <;>
    simp_all [pyValEq, Dec.beq_iff, toRat_int, Int.cast_inj]

theorem itemsEq_iff_forall2 {a b : Row} : itemsEq a b = true ↔
    List.Forall₂ (fun p q => p.1 = q.1 ∧ pyValEq p.2 q.2 = true) a b := by
  induction a generalizing b with
  | nil =>
    cases b with
    | nil => simp [itemsEq]
    | cons q t => simp [itemsEq]
  | cons p s ih =>
    cases b with
    | nil => simp [itemsEq]
    | cons q t =>
      rw [List.forall₂_cons]
      constructor
      · intro h
        unfold itemsEq at h
        rw [Bool.and_eq_true] at h
        obtain ⟨hlen, hall⟩ := h
        rw [List.zip_cons_cons, List.all_cons, Bool.and_eq_true] at hall
        obtain ⟨hpq, hrest⟩ := hall
        rw [Bool.and_eq_true, beq_iff_eq] at hpq
        refine ⟨⟨hpq.1, hpq.2⟩, ih.mp ?_⟩
        unfold itemsEq
        rw [Bool.and_eq_true]
        refine ⟨?_, hrest⟩
        simp only [List.length_cons, beq_iff_eq] at hlen ⊢
        omega
      · rintro ⟨⟨h1, h2⟩, h3⟩
        have h4 := ih.mpr h3
        unfold itemsEq at h4 ⊢
        rw [Bool.and_eq_true] at h4
        rw [Bool.and_eq_true]
        constructor
        · simp only [List.length_cons, beq_iff_eq] at h4 ⊢
          omega
        · rw [List.zip_cons_cons, List.all_cons, Bool.and_eq_true]
          exact ⟨by rw [Bool.and_eq_true, beq_iff_eq]; exact ⟨h1, h2⟩, h4.2⟩

theorem forall2_trans {R : (String × Value) → (String × Value) → Prop}
    (ht : ∀ x y z, R x y → R y z → R x z) :
    ∀ {a b c : Row}, List.Forall₂ R a b → List.Forall₂ R b c → List.Forall₂ R a c := by
  intro a b c h1 h2
  induction h1 generalizing c with
  | nil => cases h2; exact List.Forall₂.nil
  | cons hr htail ih =>
    cases h2 with
    | cons hr2 htail2 => exact List.Forall₂.cons (ht _ _ _ hr hr2) (ih htail2)

theorem itemsEq_symm {a b : Row} (h : itemsEq a b = true) : itemsEq b a = true := by
  rw [itemsEq_iff_forall2] at h ⊢
  exact h.flip.imp fun p q hpq => ⟨hpq.1.symm, pyValEq_symm hpq.2⟩

theorem itemsEq_trans {a b c : Row} (h1 : itemsEq a b = true) (h2 : itemsEq b c = true) :
    itemsEq a c = true := by
  rw [itemsEq_iff_forall2] at h1 h2 ⊢
  exact forall2_trans
    (fun x y z hxy hyz => ⟨hxy.1.trans hyz.1, pyValEq_trans hxy.2 hyz.2⟩) h1 h2

theorem rowEq_symm {a b : Row} (h : rowEq a b = true) : rowEq b a = true :=
  itemsEq_symm h

theorem rowEq_trans {a b c : Row} (h1 : rowEq a b = true) (h2 : rowEq b c = true) :
    rowEq a c = true :=
  itemsEq_trans h1 h2

theorem forall2_map_of_forall {α : Type} {R : (String × Value) → (String × Value) → Prop}
    {f g : α → String × Value} {l : List α}
    (h : ∀ x ∈ l, R (f x) (g x)) : List.Forall₂ R (l.map f) (l.map g) := by
  induction l with
  | nil => exact List.Forall₂.nil
  | cons x t ih =>
    exact List.Forall₂.cons (h x (List.mem_cons_self x t))
      (ih fun y hy => h y (List.mem_cons_of_mem x hy))

theorem orderedInsert_forall2 {a b : String × Value} {l1 l2 : Row}
    (hab : a.1 = b.1 ∧ pyValEq a.2 b.2 = true)
    (h : List.Forall₂ (fun p q => p.1 = q.1 ∧ pyValEq p.2 q.2 = true) l1 l2) :
    List.Forall₂ (fun p q => p.1 = q.1 ∧ pyValEq p.2 q.2 = true)
      (List.orderedInsert keyLE a l1) (List.orderedInsert keyLE b l2) := by
  induction h with
  | nil => exact List.Forall₂.cons hab List.Forall₂.nil
  | @cons x y t1 t2 hxy htail ih =>
    simp only [List.orderedInsert]
    by_cases hle : keyLE a x
    · have hle2 : keyLE b y := by
        unfold keyLE at hle ⊢
        rw [← hab.1, ← hxy.1]
        exact hle
      rw [if_pos hle, if_pos hle2]
      exact List.Forall₂.cons hab (List.Forall₂.cons hxy htail)
    · have hle2 : ¬ keyLE b y := by
        unfold keyLE at hle ⊢
        rw [← hab.1, ← hxy.1]
        exact hle
      rw [if_neg hle, if_neg hle2]
      exact List.Forall₂.cons hxy ih

theorem insertionSort_forall2 {l1 l2 : Row}
    (h : List.Forall₂ (fun p q => p.1 = q.1 ∧ pyValEq p.2 q.2 = true) l1 l2) :
    List.Forall₂ (fun p q => p.1 = q.1 ∧ pyValEq p.2 q.2 = true)
      (List.insertionSort keyLE l1) (List.insertionSort keyLE l2) := by
  induction h with
  | nil => exact List.Forall₂.nil
  | @cons x y t1 t2 hxy htail ih =>
    simp only [List.insertionSort]
    exact orderedInsert_forall2 hxy ih

theorem rowEq_of_forall2 {a b : Row}
    (h : List.Forall₂ (fun p q => p.1 = q.1 ∧ pyValEq p.2 q.2 = true) a b) :
    rowEq a b = true := by
  unfold rowEq sortedItems
  rw [itemsEq_iff_forall2]
  exact insertionSort_forall2 h

/-! ## Claim C3 -/

/-- **C3** (corrected).  For a row with distinct keys none of which is a raw
rename-table name, reapplying `clean_row` yields a row equal under Python `==`
to the first result, provided `clean_distance` is numerically stable on the
row's cleaned `distance` value: re-extracting a number from the text form of
the already-cleaned distance float gives an `==`-equal number.  The proviso is
forced: it fails exactly when the cleaned distance's text form is scientific
notation (magnitude `≥ 1e16` or `< 1e-4`), see the counterexample. -/
theorem clean_row_fixed_point (r : Row)
    (hnd : (r.map Prod.fst).Nodup)
    (hraw : ∀ pr ∈ rename_map, getVal r pr.1 = Option.none)
    (hdist : ∀ v d, getVal r "distance" = some v →
      (clean_distance v).1 = some (Value.float d) →
      ∃ e, (clean_distance (Value.float d)).1 = some (Value.float e) ∧
        Dec.beq e d = true) :
    rowEq (clean_row (clean_row r)) (clean_row r) = true := by
  have h1 : clean_row r = r.map fun p => (p.1, cleanVal p.1 p.2) :=
    clean_row_eq_map r hnd hraw
  have hkeys : (clean_row r).map Prod.fst = r.map Prod.fst := by
    rw [h1]
    exact keys_map_snd r cleanVal
  have hnd2 : ((clean_row r).map Prod.fst).Nodup := by
    rw [hkeys]
    exact hnd
  have hraw2 : ∀ pr ∈ rename_map, getVal (clean_row r) pr.1 = Option.none := by
    intro pr hpr
    rw [getVal_eq_none_iff]
    intro p hp
    have hmem : p.1 ∈ (clean_row r).map Prod.fst := List.mem_map_of_mem Prod.fst hp
    rw [hkeys] at hmem
    rcases List.mem_map.mp hmem with ⟨q, hq, hq1⟩
    rw [← hq1]
    exact getVal_eq_none_iff.mp (hraw pr hpr) q hq
  have h2 : clean_row (clean_row r) = (clean_row r).map fun p => (p.1, cleanVal p.1 p.2) :=
    clean_row_eq_map (clean_row r) hnd2 hraw2
  rw [h2, h1, List.map_map]
  apply rowEq_of_forall2
  apply forall2_map_of_forall
  intro p hp
  refine ⟨rfl, ?_⟩
  show pyValEq (cleanVal p.1 (cleanVal p.1 p.2)) (cleanVal p.1 p.2) = true
  by_cases hk : p.1 = "distance"
  · rw [hk]
    have hv : getVal r "distance" = some p.2 := by
      rw [← hk]
      exact getVal_mem_nodup hnd hp
    rw [cleanVal_distance p.2]
    rcases clean_distance_shape p.2 with h | ⟨d, h⟩
    · rw [h]
      decide
    · rw [h]
      obtain ⟨e, he, hbe⟩ := hdist p.2 d hv h
      rw [cleanVal_distance]
      show pyValEq (optToValue (clean_distance (Value.float d)).1) (Value.float d) = true
      rw [he]
      show Dec.beq e d = true
      exact hbe
  · rw [cleanVal_idem p.1 p.2 fun hkk => absurd hkk hk]
    exact pyValEq_refl _

/-- **C3 counterexample**: the claim as stated fails.  For the canonical-keyed
row `{"distance": "10000000000000000"}` the first `clean_row` stores the float
`1e16`, whose Python text form is `"1e+16"`; the second application re-extracts
the leading `"1"` and stores `1.0`, so `clean_row (clean_row r)` differs from
`clean_row r` (both under Python `==` and structurally). -/
theorem clean_row_not_fixed_point :
    rowEq (clean_row (clean_row [("distance", Value.str "10000000000000000")]))
        (clean_row [("distance", Value.str "10000000000000000")]) = false ∧
    clean_row (clean_row [("distance", Value.str "10000000000000000")]) ≠
      clean_row [("distance", Value.str "10000000000000000")] :=
  ⟨by decide, by decide⟩

/-- **C3 witness**: `clean_row_fixed_point` applied to the canonical-keyed row
`{"horse": "  A ", "distance": "4.32F", "purse": 5}`, whose cleaned distance
`4.32` re-extracts to the same number. -/
theorem clean_row_fixed_point_witness :
    (([("horse", Value.str "  A "), ("distance", Value.str "4.32F"),
       ("purse", Value.int 5)] : Row).map Prod.fst).Nodup ∧
    rowEq (clean_row (clean_row [("horse", Value.str "  A "),
        ("distance", Value.str "4.32F"), ("purse", Value.int 5)]))
      (clean_row [("horse", Value.str "  A "), ("distance", Value.str "4.32F"),
        ("purse", Value.int 5)]) = true := by
  refine ⟨by decide, clean_row_fixed_point _ (by decide) (by decide) ?_⟩
  intro v d hv hd
  have h2 : some (Value.str "4.32F") = some v := hv
  obtain rfl : Value.str "4.32F" = v := Option.some.inj h2
  have h3 : some (Value.float ⟨432, -2⟩) = some (Value.float d) := hd
  obtain rfl : (⟨432, -2⟩ : Dec) = d := Value.float.inj (Option.some.inj h3)
  exact ⟨⟨432, -2⟩, by decide, by decide⟩

theorem findDupsAux_spec : ∀ (rs seen dups pre : List Row),
    (∀ x, (seen.any fun s => rowEq x s) = (pre.any fun p2 => rowEq x p2)) →
    findDupsAux seen dups rs = dups ++ dupsBySpec rowEq pre rs := by
  intro rs
  induction rs with
  | nil =>
    intro seen dups pre hinv
    simp [findDupsAux, dupsBySpec]
  | cons r rs ih =>
    intro seen dups pre hinv
    unfold findDupsAux dupsBySpec
    rw [hinv r]
    by_cases hc : (pre.any fun p2 => rowEq r p2) = true
    · rw [if_pos hc, if_pos hc]
      have hinv2 : ∀ x, ((seen).any fun s => rowEq x s) =
          ((pre ++ [r]).any fun p2 => rowEq x p2) := by
        intro x
        rw [List.any_append, hinv x]
        obtain ⟨p, hp, hrp⟩ := List.any_eq_true.mp hc
        cases hxr : rowEq x r with
        | true =>
          have hxp : rowEq x p = true := rowEq_trans hxr hrp
          have hx : (pre.any fun p2 => rowEq x p2) = true :=
            List.any_eq_true.mpr ⟨p, hp, hxp⟩
          simp [hx, hxr]
        | false => simp [hxr]
      rw [ih seen (dups ++ [r]) (pre ++ [r]) hinv2, List.append_assoc]
    · rw [if_neg hc, if_neg hc]
      have hinv2 : ∀ x, ((seen ++ [r]).any fun s => rowEq x s) =
          ((pre ++ [r]).any fun p2 => rowEq x p2) := by
        intro x
        rw [List.any_append, List.any_append, hinv x]
      rw [ih (seen ++ [r]) dups (pre ++ [r]) hinv2]
      rfl

theorem find_duplicates_eq_rowEq (rows : List Row) :
    find_duplicates rows = dupsBySpec rowEq [] rows := by
  unfold find_duplicates
  rw [findDupsAux_spec rows [] [] [] fun x => rfl]
  rw [List.nil_append]

theorem charsLE_antisymm : ∀ {a b : List Char},
    charsLE a b = true → charsLE b a = true → a = b := by
  intro a
  induction a with
  | nil =>
    intro b h1 h2
    cases b with
    | nil => rfl
    | cons d ds => simp [charsLE] at h2
  | cons c cs ih =>
    intro b h1 h2
    cases b with
    | nil => simp [charsLE] at h1
    | cons d ds =>
      simp only [charsLE] at h1 h2
      by_cases hcd : c = d
      · subst hcd
        rw [if_pos rfl] at h1 h2
        rw [ih h1 h2]
      · rw [if_neg hcd, decide_eq_true_eq] at h1
        rw [if_neg (Ne.symm hcd), decide_eq_true_eq] at h2
        exact absurd h2 (lt_asymm h1)

theorem strLEb_antisymm {a b : String} (h1 : strLEb a b = true)
    (h2 : strLEb b a = true) : a = b := by
  have h : a.toList = b.toList := charsLE_antisymm h1 h2
  exact congrArg String.mk h

theorem getVal_perm {a b : Row} (hperm : a.Perm b) (hnd : (a.map Prod.fst).Nodup)
    (k : String) : getVal a k = getVal b k := by
  cases h : getVal a k with
  | some v =>
    have hm : (k, v) ∈ b := hperm.mem_iff.mp (getVal_some_mem h)
    have hndb : (b.map Prod.fst).Nodup := ((hperm.map Prod.fst).nodup_iff).mp hnd
    exact (getVal_mem_nodup hndb hm).symm
  | none =>
    symm
    rw [getVal_eq_none_iff] at h ⊢
    intro p hp
    exact h p (hperm.mem_iff.mpr hp)

theorem sortedItems_perm (r : Row) : (sortedItems r).Perm r :=
  List.perm_insertionSort keyLE r

theorem sortedItems_sorted (r : Row) : List.Sorted keyLE (sortedItems r) :=
  List.sorted_insertionSort keyLE r

theorem itemsEq_lookup {a b : Row} (h : itemsEq a b = true) (k : String) :
    Option.Rel (fun v w => pyValEq v w = true) (getVal a k) (getVal b k) := by
  rw [itemsEq_iff_forall2] at h
  induction h with
  | nil => exact Option.Rel.none
  | @cons p q s t hr htail ih =>
    rw [getVal_cons, getVal_cons]
    by_cases hk : (p.1 == k) = true
    · rw [if_pos hk, if_pos (by rw [← hr.1]; exact hk)]
      exact Option.Rel.some hr.2
    · rw [if_neg hk, if_neg (by rw [← hr.1]; exact hk)]
      exact ih

theorem sorted_lookup_eq : ∀ {a b : Row},
    List.Sorted keyLE a → List.Sorted keyLE b →
    (a.map Prod.fst).Nodup → (b.map Prod.fst).Nodup →
    (∀ k, Option.Rel (fun v w => pyValEq v w = true) (getVal a k) (getVal b k)) →
    itemsEq a b = true := by
  intro a
  induction a with
  | nil =>
    intro b _ _ _ _ hl
    cases b with
    | nil => rfl
    | cons q t =>
      have h := hl q.1
      rw [show getVal ([] : Row) q.1 = Option.none from rfl, getVal_cons,
        if_pos (by simp)] at h
      cases h
  | cons p s ih =>
    intro b hsa hsb hna hnb hl
    cases b with
    | nil =>
      have h := hl p.1
      rw [show getVal ([] : Row) p.1 = Option.none from rfl, getVal_cons,
        if_pos (by simp)] at h
      cases h
    | cons q t =>
      have hp1 : ∃ w, getVal (q :: t) p.1 = some w ∧ pyValEq p.2 w = true := by
        have h := hl p.1
        rw [getVal_cons p s p.1, if_pos (by simp)] at h
        cases hb : getVal (q :: t) p.1 with
        | some w =>
          rw [hb] at h
          cases h with
          | some hvw => exact ⟨w, rfl, hvw⟩
        | none =>
          rw [hb] at h
          cases h
      obtain ⟨w, hw, hvw⟩ := hp1
      have hq1 : ∃ w2, getVal (p :: s) q.1 = some w2 := by
        have h := hl q.1
        cases hb : getVal (p :: s) q.1 with
        | some w2 => exact ⟨w2, rfl⟩
        | none =>
          rw [hb, getVal_cons q t q.1, if_pos (by simp)] at h
          cases h
      obtain ⟨w2, hw2⟩ := hq1
      have hkey : p.1 = q.1 := by
        rcases List.mem_cons.mp (getVal_some_mem hw) with h1 | h1
        · rw [← h1]
        · rcases List.mem_cons.mp (getVal_some_mem hw2) with h2 | h2
          · rw [← h2]
          · have hle1 : strLEb p.1 q.1 = true :=
              (List.sorted_cons.mp hsa).1 (q.1, w2) h2
            have hle2 : strLEb q.1 p.1 = true :=
              (List.sorted_cons.mp hsb).1 (p.1, w) h1
            exact strLEb_antisymm hle1 hle2
      have hwq : w = q.2 := by
        rw [hkey, getVal_cons q t q.1, if_pos (by simp)] at hw
        exact (Option.some.inj hw).symm
      have hna2 : (s.map Prod.fst).Nodup := (List.nodup_cons.mp (by simpa using hna)).2
      have hnb2 : (t.map Prod.fst).Nodup := (List.nodup_cons.mp (by simpa using hnb)).2
      have hl2 : ∀ k, Option.Rel (fun v w => pyValEq v w = true)
          (getVal s k) (getVal t k) := by
        intro k
        by_cases hk : p.1 = k
        · have hs : getVal s k = Option.none := by
            rw [getVal_eq_none_iff]
            intro x hx hxk
            have hmem : p.1 ∈ s.map Prod.fst := by
              rw [hk, ← hxk]
              exact List.mem_map_of_mem Prod.fst hx
            exact (List.nodup_cons.mp (by simpa using hna)).1 hmem
          have ht2 : getVal t k = Option.none := by
            rw [getVal_eq_none_iff]
            intro x hx hxk
            have hmem : q.1 ∈ t.map Prod.fst := by
              rw [← hkey, hk, ← hxk]
              exact List.mem_map_of_mem Prod.fst hx
            exact (List.nodup_cons.mp (by simpa using hnb)).1 hmem
          rw [hs, ht2]
          exact Option.Rel.none
        · have h := hl k
          rw [getVal_cons p s k, if_neg (by simp [hk]),
              getVal_cons q t k, if_neg (by simp [hkey ▸ hk])] at h
          exact h
      rw [itemsEq_iff_forall2, List.forall₂_cons]
      refine ⟨⟨hkey, by rw [← hwq]; exact hvw⟩, ?_⟩
      rw [← itemsEq_iff_forall2]
      exact ih ((List.sorted_cons.mp hsa).2) ((List.sorted_cons.mp hsb).2) hna2 hnb2 hl2

theorem rowEq_iff_lookup {a b : Row} (hna : (a.map Prod.fst).Nodup)
    (hnb : (b.map Prod.fst).Nodup) :
    rowEq a b = true ↔
      ∀ k, Option.Rel (fun v w => pyValEq v w = true) (getVal a k) (getVal b k) := by
  have hpa := sortedItems_perm a
  have hpb := sortedItems_perm b
  have hnsa : ((sortedItems a).map Prod.fst).Nodup := ((hpa.map Prod.fst).nodup_iff).mpr hna
  have hnsb : ((sortedItems b).map Prod.fst).Nodup := ((hpb.map Prod.fst).nodup_iff).mpr hnb
  constructor
  · intro h k
    have h2 := itemsEq_lookup h k
    rw [getVal_perm hpa hnsa k, getVal_perm hpb hnsb k] at h2
    exact h2
  · intro h
    unfold rowEq
    apply sorted_lookup_eq (sortedItems_sorted a) (sortedItems_sorted b) hnsa hnsb
    intro k
    rw [getVal_perm hpa hnsa k, getVal_perm hpb hnsb k]
    exact h k

theorem specRowEq_iff_lookup {a b : Row} (hna : (a.map Prod.fst).Nodup)
    (hnb : (b.map Prod.fst).Nodup) :
    specRowEq a b = true ↔
      ∀ k, Option.Rel (fun v w => pyValEq v w = true) (getVal a k) (getVal b k) := by
  unfold specRowEq
  rw [Bool.and_eq_true, List.all_eq_true, List.all_eq_true]
  constructor
  · rintro ⟨h1, h2⟩ k
    cases ha : getVal a k with
    | some v =>
      have hm := getVal_some_mem ha
      have h3 := h1 (k, v) hm
      cases hb : getVal b k with
      | some w =>
        rw [hb] at h3
        exact Option.Rel.some (by simpa using h3)
      | none =>
        rw [hb] at h3
        simp at h3
    | none =>
      cases hb : getVal b k with
      | some w =>
        have hm := getVal_some_mem hb
        have h3 := h2 (k, w) hm
        rw [ha] at h3
        simp at h3
      | none => exact Option.Rel.none
  · intro h
    constructor
    · intro p hp
      have ha : getVal a p.1 = some p.2 := getVal_mem_nodup hna hp
      have h2 := h p.1
      rw [ha] at h2
      cases hb : getVal b p.1 with
      | some w =>
        rw [hb] at h2
        cases h2 with
        | some hvw => simpa using hvw
      | none =>
        rw [hb] at h2
        cases h2
    · intro p hp
      have hb : getVal b p.1 = some p.2 := getVal_mem_nodup hnb hp
      have h2 := h p.1
      rw [hb] at h2
      cases ha : getVal a p.1 with
      | some w => simp
      | none =>
        rw [ha] at h2
        cases h2

theorem rowEq_eq_specRowEq {a b : Row} (hna : (a.map Prod.fst).Nodup)
    (hnb : (b.map Prod.fst).Nodup) : rowEq a b = specRowEq a b :=
  Bool.eq_iff_iff.mpr
    ((rowEq_iff_lookup hna hnb).trans (specRowEq_iff_lookup hna hnb).symm)

theorem dupsBySpec_congr : ∀ (rs pre : List Row),
    (∀ r ∈ rs, (r.map Prod.fst).Nodup) → (∀ p ∈ pre, (p.map Prod.fst).Nodup) →
    dupsBySpec rowEq pre rs = dupsBySpec specRowEq pre rs := by
  intro rs
  induction rs with
  | nil => intro pre _ _; rfl
  | cons r rs ih =>
    intro pre hrs hpre
    unfold dupsBySpec
    have hr : (r.map Prod.fst).Nodup := hrs r (List.mem_cons_self r rs)
    have hany : (pre.any fun p => rowEq r p) = (pre.any fun p => specRowEq r p) := by
      rw [Bool.eq_iff_iff, List.any_eq_true, List.any_eq_true]
      constructor
      · rintro ⟨p, hp, hpe⟩
        refine ⟨p, hp, ?_⟩
        rw [← rowEq_eq_specRowEq hr (hpre p hp)]
        exact hpe
      · rintro ⟨p, hp, hpe⟩
        refine ⟨p, hp, ?_⟩
        rw [rowEq_eq_specRowEq hr (hpre p hp)]
        exact hpe
    rw [hany]
    have htail : ∀ x ∈ rs, (x.map Prod.fst).Nodup :=
      fun x hx => hrs x (List.mem_cons_of_mem r hx)
    have hpre2 : ∀ p ∈ pre ++ [r], (p.map Prod.fst).Nodup := by
      intro p hp
      rcases List.mem_append.mp hp with h | h
      · exact hpre p h
      · rw [List.mem_singleton.mp h]
        exact hr
    rw [ih (pre ++ [r]) htail hpre2]

/-- **C4** (confirmed).  `find_duplicates` returns exactly those rows that are
equal — same full set of (key, value) pairs, order-independently — to some
earlier row, in input order, emitting each duplicate occurrence from the
second occurrence onward and never the first (`dupsBySpec specRowEq [] rows`
is precisely that description). -/
theorem find_duplicates_spec (rows : List Row)
    (hnd : ∀ r ∈ rows, (r.map Prod.fst).Nodup) :
    find_duplicates rows = dupsBySpec specRowEq [] rows := by
  rw [find_duplicates_eq_rowEq]
  exact dupsBySpec_congr rows [] hnd (by intro p hp; cases hp)

/-- **C4 witness**: the spec's example rows; the second copy of
`{"id": 1, "name": "A"}` — and only it — is returned. -/
theorem find_duplicates_spec_witness :
    (∀ r ∈ ([[("id", Value.int 1), ("name", Value.str "A")],
             [("id", Value.int 1), ("name", Value.str "A")],
             [("id", Value.int 2), ("name", Value.str "B")]] : List Row),
      (r.map Prod.fst).Nodup) ∧
    find_duplicates [[("id", Value.int 1), ("name", Value.str "A")],
             [("id", Value.int 1), ("name", Value.str "A")],
             [("id", Value.int 2), ("name", Value.str "B")]] =
      dupsBySpec specRowEq [] [[("id", Value.int 1), ("name", Value.str "A")],
             [("id", Value.int 1), ("name", Value.str "A")],
             [("id", Value.int 2), ("name", Value.str "B")]] ∧
    dupsBySpec specRowEq [] [[("id", Value.int 1), ("name", Value.str "A")],
             [("id", Value.int 1), ("name", Value.str "A")],
             [("id", Value.int 2), ("name", Value.str "B")]] =
      [[("id", Value.int 1), ("name", Value.str "A")]] :=
  ⟨by decide, find_duplicates_spec _ (by decide), by decide⟩

end RaceLens
